import Mathlib

/-!
# Verification of the Local Ai Coder extension core

A shallow embedding, in Lean 4, of the core logic of the Local Ai Coder
VS Code extension: the `ResponseParser` (recovery of a structured plan
from raw model output), the `FileActionExecutor` (path resolution with
workspace containment and batch application with cancellation), and the
`AssistantController` (model-id inheritance resolution, model-handle
sharing, the plan-generation retry loop and the collaborative turn).

JavaScript strings are modelled as Lean `String`s, JSON values as an
inductive `Json` type, and the built-in `JSON.parse` as an executable
recursive-descent parser over the characters of the input.  Stateful
loops are modelled as pure recursive functions, with external effects
(model generation, approval dialogs, the file system) abstracted as
oracle parameters.
-/

set_option maxHeartbeats 1600000
set_option maxRecDepth 8000

/-- The JavaScript `String.prototype.trim()` method, modelled at the
character-list level: drop whitespace from both ends. -/
def String.jsTrim (s : String) : String :=
  String.mk (((s.data.dropWhile Char.isWhitespace).reverse.dropWhile
    Char.isWhitespace).reverse)

/-- The JavaScript `String.prototype.toLowerCase()` method, modelled at
the character-list level (ASCII lowering). -/
def String.jsToLower (s : String) : String :=
  String.mk (s.data.map Char.toLower)

namespace LocalAiCoder

/-! ## Character and string utilities shared by the embedding -/

/-- The apostrophe character (U+0027), written via its code point. -/
def squote : Char := Char.ofNat 39

/-- Whitespace in the sense of JSON and of `findNextMeaningfulChar`. -/
def isJsonWs (c : Char) : Bool :=
  c = ' ' || c = '\n' || c = '\r' || c = '\t'

/-- Case-insensitive equality of two characters (ASCII lowering). -/
def ciEq (a b : Char) : Bool := a.toLower = b.toLower

/-- Case-insensitive prefix test on character lists. -/
def ciPre : List Char → List Char → Bool
  | [], _ => true
  | _ :: _, [] => false
  | p :: ps, c :: cs => ciEq p c && ciPre ps cs

/-- Exact prefix test on character lists. -/
def listPre : List Char → List Char → Bool
  | [], _ => true
  | _ :: _, [] => false
  | p :: ps, c :: cs => p = c && listPre ps cs

/-- Index of the first occurrence of pattern `pat` in `cs`, scanning left
to right (a model of `String.prototype.indexOf` for substrings). -/
def findSubIdx (pat : List Char) : List Char → Option Nat
  | [] => if pat = [] then some 0 else none
  | c :: cs =>
    if listPre pat (c :: cs) then some 0
    else (findSubIdx pat cs).map (· + 1)

/-- Index of the first case-insensitive occurrence of `pat` in `cs`. -/
def findSubIdxCI (pat : List Char) : List Char → Option Nat
  | [] => if pat = [] then some 0 else none
  | c :: cs =>
    if ciPre pat (c :: cs) then some 0
    else (findSubIdxCI pat cs).map (· + 1)

/-- All start indices at which `pat` occurs in `cs` (overlaps included). -/
def subOccurrences (pat : List Char) : List Char → List Nat
  | [] => if pat = [] then [0] else []
  | c :: cs =>
    let rest := (subOccurrences pat cs).map (· + 1)
    if listPre pat (c :: cs) then 0 :: rest else rest

/-- Index of the first occurrence of a single character, as
`String.prototype.indexOf` for characters. -/
def findCharIdx (ch : Char) : List Char → Option Nat
  | [] => none
  | c :: cs => if c = ch then some 0 else (findCharIdx ch cs).map (· + 1)

/-- Index of the last occurrence of a single character, as
`String.prototype.lastIndexOf` for characters. -/
def findLastCharIdx (ch : Char) : List Char → Option Nat
  | [] => none
  | c :: cs =>
    match findLastCharIdx ch cs with
    | some i => some (i + 1)
    | none => if c = ch then some 0 else none

/-- Index of the last occurrence of a pattern, as
`String.prototype.lastIndexOf` for substrings. -/
def findLastSubIdx (pat : List Char) : List Char → Option Nat
  | [] => if pat = [] then some 0 else none
  | c :: cs =>
    match findLastSubIdx pat cs with
    | some i => some (i + 1)
    | none => if listPre pat (c :: cs) then some 0 else none

/-- Split a character list at every occurrence of a character satisfying
`p`, keeping empty pieces (a model of `String.prototype.split` with a
single-character-class regex). -/
def splitByPred (p : Char → Bool) : List Char → List (List Char)
  | [] => [[]]
  | c :: cs =>
    let rest := splitByPred p cs
    if p c then [] :: rest
    else
      match rest with
      | [] => [[c]]
      | piece :: pieces => (c :: piece) :: pieces

/-- Split a string into the maximal runs of non-whitespace characters (a
model of `value.split(/\s+/)` followed by dropping empty tokens). -/
def splitWsRuns (s : String) : List String :=
  ((splitByPred (fun c => c.isWhitespace) s.data).filter (· ≠ [])).map
    (fun cs => String.mk cs)

/-! ## JSON values, rendering, and a strict structural parser

`Json` models the values produced by the JavaScript `JSON.parse`
builtin, object fields being kept in textual order (with a last-binding
lookup, matching the duplicate-key semantics of `JSON.parse`). -/

inductive Json where
  | null : Json
  | bool : Bool → Json
  | num : Int → Json
  | str : String → Json
  | arr : List Json → Json
  | obj : List (String × Json) → Json

namespace Json

/-- JavaScript property lookup on a parsed object: the last binding of a
duplicated key wins; returns `none` for absent keys and on non-objects
(modelling `undefined`). -/
def getField : Json → String → Option Json
  | .obj kvs, k => (kvs.reverse.find? (fun kv => kv.1 = k)).map (fun kv => kv.2)
  | _, _ => none

/-- First field among `keys` that is present and not JSON `null`,
modelling a `a.k1 ?? a.k2 ?? ...` nullish-coalescing chain
(`undefined` and `null` both fall through). -/
def fieldCoalesce (j : Json) (keys : List String) : Option Json :=
  match keys with
  | [] => none
  | k :: rest =>
    match j.getField k with
    | some .null => fieldCoalesce j rest
    | some v => some v
    | none => fieldCoalesce j rest

end Json

/-- Escape one character as inside a JSON string literal.  The renderer
escapes the quote, the backslash and the common control characters; any
other character is emitted verbatim. -/
def escChar (c : Char) : List Char :=
  if c = '"' then ['\\', '"']
  else if c = '\\' then ['\\', '\\']
  else if c = '\n' then ['\\', 'n']
  else if c = '\r' then ['\\', 'r']
  else if c = '\t' then ['\\', 't']
  else if c = Char.ofNat 8 then ['\\', 'b']
  else if c = Char.ofNat 12 then ['\\', 'f']
  else [c]

/-- Render the characters of a JSON string literal (quotes included). -/
def renderStrChars (s : String) : List Char :=
  '"' :: (s.data.map escChar).flatten ++ ['"']

mutual

/-- Render a JSON value as characters, with no added whitespace —
the canonical plain serialization of a plan object. -/
def renderJson : Json → List Char
  | .null => "null".data
  | .bool true => "true".data
  | .bool false => "false".data
  | .num n => (toString n).data
  | .str s => renderStrChars s
  | .arr xs => '[' :: renderElems xs ++ [']']
  | .obj kvs => '{' :: renderMembers kvs ++ ['}']

/-- Render the elements of a JSON array (no brackets). -/
def renderElems : List Json → List Char
  | [] => []
  | x :: xs => renderJson x ++ renderSep xs

/-- Render `,`-prefixed continuation elements of a JSON array. -/
def renderSep : List Json → List Char
  | [] => []
  | x :: xs => ',' :: (renderJson x ++ renderSep xs)

/-- Render the members of a JSON object (no braces). -/
def renderMembers : List (String × Json) → List Char
  | [] => []
  | kv :: kvs => renderStrChars kv.1 ++ ':' :: renderJson kv.2 ++ renderMemberSep kvs

/-- Render `,`-prefixed continuation members of a JSON object. -/
def renderMemberSep : List (String × Json) → List Char
  | [] => []
  | kv :: kvs => ',' :: (renderStrChars kv.1 ++ ':' :: renderJson kv.2 ++ renderMemberSep kvs)

end

/-- Decode one escape character of a JSON string literal. -/
def unescChar (c : Char) : Option Char :=
  if c = '"' then some '"'
  else if c = '\\' then some '\\'
  else if c = '/' then some '/'
  else if c = 'n' then some '\n'
  else if c = 'r' then some '\r'
  else if c = 't' then some '\t'
  else if c = 'b' then some (Char.ofNat 8)
  else if c = 'f' then some (Char.ofNat 12)
  else none

/-- Parse the body of a JSON string literal (after the opening quote),
returning the decoded characters and the rest of the input. -/
def parseStrChars : List Char → Option (List Char × List Char)
  | [] => none
  | c :: rest =>
    if c = '"' then some ([], rest)
    else if c = '\\' then
      match rest with
      | [] => none
      | e :: rest2 =>
        match unescChar e with
        | some u => (parseStrChars rest2).map (fun p => (u :: p.1, p.2))
        | none => none
    else (parseStrChars rest).map (fun p => (c :: p.1, p.2))

/-- Digits of a decimal integer literal, maximal-munch. -/
def takeDigits : List Char → (List Char × List Char)
  | [] => ([], [])
  | c :: cs =>
    if c.isDigit then
      let p := takeDigits cs
      (c :: p.1, p.2)
    else ([], c :: cs)

/-- Value of a list of decimal digits. -/
def digitsVal (ds : List Char) : Nat :=
  ds.foldl (fun acc c => acc * 10 + (c.toNat - 48)) 0

/-- Parse a JSON integer literal (the plan wire format carries no
fractional numbers; a fractional literal fails to parse). -/
def parseNum (cs : List Char) : Option (Json × List Char) :=
  match cs with
  | '-' :: rest =>
    match takeDigits rest with
    | ([], _) => none
    | (ds, rest') => some (.num (-(digitsVal ds : Int)), rest')
  | _ =>
    match takeDigits cs with
    | ([], _) => none
    | (ds, rest') => some (.num (digitsVal ds : Int), rest')

/-- Drop leading JSON whitespace. -/
def skipWs (cs : List Char) : List Char := cs.dropWhile isJsonWs

mutual

/-- Strict recursive-descent JSON value parser (fuel-indexed; fuel is
spent once per parsing step, so any fuel at least the size of the value
suffices). -/
def parseVal : Nat → List Char → Option (Json × List Char)
  | 0, _ => none
  | fuel + 1, cs =>
    match skipWs cs with
    | [] => none
    | c :: rest =>
      if c = '{' then parseObjStart fuel rest
      else if c = '[' then parseArrStart fuel rest
      else if c = '"' then (parseStrChars rest).map (fun p => (.str (String.mk p.1), p.2))
      else if c = 't' then
        if listPre ['r', 'u', 'e'] rest then some (.bool true, rest.drop 3) else none
      else if c = 'f' then
        if listPre ['a', 'l', 's', 'e'] rest then some (.bool false, rest.drop 4) else none
      else if c = 'n' then
        if listPre ['u', 'l', 'l'] rest then some (.null, rest.drop 3) else none
      else if c = '-' || c.isDigit then parseNum (c :: rest)
      else none

/-- Parse an array after the opening bracket. -/
def parseArrStart : Nat → List Char → Option (Json × List Char)
  | 0, _ => none
  | fuel + 1, cs =>
    match skipWs cs with
    | [] => none
    | c :: rest =>
      if c = ']' then some (.arr [], rest)
      else
        (parseVal fuel cs).bind fun p =>
          (parseArrRest fuel p.2).map fun q => (.arr (p.1 :: q.1), q.2)

/-- Parse the continuation of an array after a parsed element. -/
def parseArrRest : Nat → List Char → Option (List Json × List Char)
  | 0, _ => none
  | fuel + 1, cs =>
    match skipWs cs with
    | [] => none
    | c :: rest =>
      if c = ']' then some ([], rest)
      else if c = ',' then
        (parseVal fuel rest).bind fun p =>
          (parseArrRest fuel p.2).map fun q => (p.1 :: q.1, q.2)
      else none

/-- Parse an object after the opening brace. -/
def parseObjStart : Nat → List Char → Option (Json × List Char)
  | 0, _ => none
  | fuel + 1, cs =>
    match skipWs cs with
    | [] => none
    | c :: rest =>
      if c = '}' then some (.obj [], rest)
      else
        (parseMember fuel cs).bind fun p =>
          (parseObjRest fuel p.2).map fun q => (.obj (p.1 :: q.1), q.2)

/-- Parse the continuation of an object after a parsed member. -/
def parseObjRest : Nat → List Char → Option (List (String × Json) × List Char)
  | 0, _ => none
  | fuel + 1, cs =>
    match skipWs cs with
    | [] => none
    | c :: rest =>
      if c = '}' then some ([], rest)
      else if c = ',' then
        (parseMember fuel rest).bind fun p =>
          (parseObjRest fuel p.2).map fun q => (p.1 :: q.1, q.2)
      else none

/-- Parse one `"key": value` member of an object. -/
def parseMember : Nat → List Char → Option ((String × Json) × List Char)
  | 0, _ => none
  | fuel + 1, cs =>
    match skipWs cs with
    | [] => none
    | c :: rest =>
      if c = '"' then
        (parseStrChars rest).bind fun kp =>
          match skipWs kp.2 with
          | [] => none
          | d :: vrest =>
            if d = ':' then
              (parseVal fuel vrest).map fun vp => ((String.mk kp.1, vp.1), vp.2)
            else none
      else none

end

/-- The JavaScript `JSON.parse` builtin: strict parse of a full JSON
text, allowing surrounding whitespace, rejecting trailing input. -/
def jsonParse (s : String) : Option Json :=
  match parseVal (2 * s.length + 2) s.data with
  | some (v, rest) => if skipWs rest = [] then some v else none
  | none => none

mutual

/-- Parsing-step count of a JSON value: a fuel budget sufficient for
`parseVal` on its rendering. -/
def jsize : Json → Nat
  | .null => 1
  | .bool _ => 1
  | .num _ => 1
  | .str _ => 1
  | .arr xs => 1 + jsizeList xs
  | .obj kvs => 1 + jsizeObj kvs

/-- Fuel budget for `parseArrRest` on rendered continuation elements. -/
def jsizeList : List Json → Nat
  | [] => 1
  | x :: xs => 1 + jsize x + jsizeList xs

/-- Fuel budget for `parseObjRest` on rendered continuation members. -/
def jsizeObj : List (String × Json) → Nat
  | [] => 1
  | kv :: kvs => 2 + jsize kv.2 + jsizeObj kvs

end

mutual

/-- A JSON value containing no numeric literal (the plan wire format is
purely textual). -/
def numFree : Json → Bool
  | .null => true
  | .bool _ => true
  | .num _ => false
  | .str _ => true
  | .arr xs => numFreeList xs
  | .obj kvs => numFreeObj kvs

/-- `numFree` on array elements. -/
def numFreeList : List Json → Bool
  | [] => true
  | x :: xs => numFree x && numFreeList xs

/-- `numFree` on object members. -/
def numFreeObj : List (String × Json) → Bool
  | [] => true
  | kv :: kvs => numFree kv.2 && numFreeObj kvs

end

/-! ## The plan data model (`src/types.ts`) -/

/-- `FileActionType` from `src/types.ts`. -/
inductive FileActionType where
  | create : FileActionType
  | edit : FileActionType
  | delete : FileActionType
deriving DecidableEq

/-- `FileAction` from `src/types.ts` (optional fields as `Option`). -/
structure FileAction where
  type : FileActionType
  path : String
  content : Option String
  description : Option String
deriving DecidableEq

/-- `ShellCommandRequest` from `src/types.ts`. -/
structure ShellCommandRequest where
  command : String
  description : Option String
deriving DecidableEq

/-- `PlanStep` from `src/types.ts`. -/
structure PlanStep where
  title : String
  detail : Option String
  result : Option String
deriving DecidableEq

/-- `AssistantPlan` from `src/types.ts`: the canonical plan schema. -/
structure AssistantPlan where
  summary : String
  message : String
  steps : List PlanStep
  liveLog : List String
  qaFindings : List String
  testResults : List String
  commandRequests : List ShellCommandRequest
  fileActions : List FileAction
deriving DecidableEq

instance {ε α : Type} [DecidableEq ε] [DecidableEq α] : DecidableEq (Except ε α) :=
  fun x y =>
    match x, y with
    | .error a, .error b =>
      if h : a = b then .isTrue (congrArg Except.error h)
      else .isFalse (fun hc => h (Except.error.inj hc))
    | .ok a, .ok b =>
      if h : a = b then .isTrue (congrArg Except.ok h)
      else .isFalse (fun hc => h (Except.ok.inj hc))
    | .error _, .ok _ => .isFalse (fun hc => Except.noConfusion hc)
    | .ok _, .error _ => .isFalse (fun hc => Except.noConfusion hc)

/-! ## `ResponseParser` (`src/assistant/responseParser.ts`) -/

namespace ResponseParser

/-- `FILE_ACTION_FILLER_WORDS` from the source. -/
def fillerWords : List String :=
  ["file", "files", "the", "a", "an", "path", "folder", "directory"]

/-- The error message template of `expectString`. -/
def missingMsg (field : String) : String :=
  "Assistant response field `" ++ field ++ "` is missing or empty."

/-- `ResponseParser.expectString`: a field must be a string; a blank
string is rejected unless `allowEmpty`, in which case it collapses to
the empty string while a non-blank string is returned untrimmed. -/
def expectString (value : Option Json) (field : String) (allowEmpty : Bool) :
    Except String String :=
  match value with
  | some (.str s) =>
    if ¬allowEmpty ∧ s.jsTrim = "" then .error (missingMsg field)
    else if allowEmpty then (if s.jsTrim = "" then .ok "" else .ok s)
    else .ok s
  | _ => .error (missingMsg field)

/-- `ResponseParser.startsWithAny` on collapsed character lists. -/
def startsWithAny (value : List Char) (cands : List (List Char)) : Bool :=
  cands.any (fun cand => listPre cand value)

/-- `ResponseParser.normalizeFileActionType`: lower-case, strip every
character outside `a`–`z`, and classify by near-synonym prefixes. -/
def normalizeFileActionType (value : Option String) : Option FileActionType :=
  match value with
  | none => none
  | some v =>
    let lowered := v.jsTrim.jsToLower
    if lowered = "" then none
    else
      let collapsed := lowered.data.filter (fun c => 'a' ≤ c && c ≤ 'z')
      if startsWithAny collapsed
          ["create".data, "add".data, "write".data, "new".data, "make".data] then
        some .create
      else if startsWithAny collapsed
          ["edit".data, "update".data, "modify".data, "change".data,
           "replace".data, "revise".data, "patch".data] then
        some .edit
      else if startsWithAny collapsed
          ["delete".data, "remove".data, "drop".data, "unlink".data, "erase".data] then
        some .delete
      else none

/-- `ResponseParser.getFirstString`: the first of `keys` bound to a
string with non-blank trim; the trimmed value is returned. -/
def getFirstString (record : Json) (keys : List String) : Option String :=
  match keys with
  | [] => none
  | k :: rest =>
    match record.getField k with
    | some (.str s) =>
      if s.jsTrim = "" then getFirstString record rest else some s.jsTrim
    | _ => getFirstString record rest

/-- All-strings test used by `extractFileContent` for array values. -/
def allStrings : List Json → Option (List String)
  | [] => some []
  | .str s :: rest => (allStrings rest).map (fun ss => s :: ss)
  | _ => none

/-- The key scan of `extractFileContent`: first present key whose value
is a string (taken verbatim) or an all-string array (joined with
newlines); other values fall through to the next key. -/
def contentFrom (record : Json) : List String → Option String
  | [] => none
  | k :: rest =>
    match record.getField k with
    | none => contentFrom record rest
    | some (.str s) => some s
    | some (.arr xs) =>
      match allStrings xs with
      | some ss => some (String.intercalate "\n" ss)
      | none => contentFrom record rest
    | some _ => contentFrom record rest

/-- `ResponseParser.extractFileContent` over its content-like keys. -/
def extractFileContent (record : Json) : Option String :=
  contentFrom record ["content", "contents", "text", "body", "data", "code", "value"]

/-- Dash characters accepted by `splitValueAndDescription`. -/
def isDash (c : Char) : Bool := c = '-' || c = '–' || c = '—'

/-- Index of the first ` - ` / ` – ` / ` — ` separator (whitespace, dash,
whitespace), the regex of `splitValueAndDescription`. -/
def findSepIdx : List Char → Option Nat
  | a :: b :: c :: rest =>
    if a.isWhitespace && isDash b && c.isWhitespace then some 0
    else (findSepIdx (b :: c :: rest)).map (· + 1)
  | _ => none

/-- `ResponseParser.splitValueAndDescription`: split on the first
space-dash-space separator; the description is dropped when blank. -/
def splitValueAndDescription (value : String) : String × Option String :=
  let trimmed := value.jsTrim
  if trimmed = "" then ("", none)
  else
    match findSepIdx trimmed.data with
    | none => (trimmed, none)
    | some i =>
      let command := (String.mk (trimmed.data.take i)).jsTrim
      let description := (String.mk (trimmed.data.drop (i + 3))).jsTrim
      (command, if description = "" then none else some description)

/-- Bullet characters stripped by `stripListPrefix`. -/
def isBullet (c : Char) : Bool := c = '-' || c = '*' || c = '•'

/-- Remove an anchored `run⁺ whitespace⁺` occurrence, where `run` is a
maximal run of characters satisfying `p`; no-op when absent. -/
def dropRunWs (p : Char → Bool) (cs : List Char) : List Char :=
  let run := cs.takeWhile p
  let rest := cs.drop run.length
  let ws := rest.takeWhile (fun c => c.isWhitespace)
  if run ≠ [] ∧ ws ≠ [] then rest.drop ws.length else cs

/-- Remove an anchored `\d+[.)]\s+` occurrence; no-op when absent. -/
def dropNumberedMark (cs : List Char) : List Char :=
  let ds := cs.takeWhile (fun c => c.isDigit)
  let rest := cs.drop ds.length
  match rest with
  | m :: rest2 =>
    if ds ≠ [] ∧ (m = '.' ∨ m = ')') then
      let ws := rest2.takeWhile (fun c => c.isWhitespace)
      if ws ≠ [] then rest2.drop ws.length else cs
    else cs
  | [] => cs

/-- Remove an anchored `\(\d+\)\s+` occurrence; no-op when absent. -/
def dropParenNumber (cs : List Char) : List Char :=
  match cs with
  | '(' :: rest =>
    let ds := rest.takeWhile (fun c => c.isDigit)
    let rest2 := rest.drop ds.length
    match rest2 with
    | ')' :: rest3 =>
      if ds ≠ [] then
        let ws := rest3.takeWhile (fun c => c.isWhitespace)
        if ws ≠ [] then rest3.drop ws.length else cs
      else cs
    | _ => cs
  | _ => cs

/-- Remove an anchored `[a-z]\)\s+` (case-insensitive) occurrence. -/
def dropLetterMark (cs : List Char) : List Char :=
  match cs with
  | l :: ')' :: rest =>
    if ('a' ≤ l.toLower ∧ l.toLower ≤ 'z') then
      let ws := rest.takeWhile (fun c => c.isWhitespace)
      if ws ≠ [] then rest.drop ws.length else cs
    else cs
  | _ => cs

/-- `ResponseParser.stripListPrefix`: trim, then strip bullet, numbered,
parenthesised-number and letter list markers in sequence, then trim. -/
def stripListPrefix (value : String) : String :=
  let r0 := value.jsTrim.data
  let r1 := dropRunWs isBullet r0
  let r2 := dropNumberedMark r1
  let r3 := dropParenNumber r2
  let r4 := dropLetterMark r3
  (String.mk r4).jsTrim

/-- Separator characters of the label regex in `stripLeadingLabel`. -/
def isLabelSep (c : Char) : Bool := c = ':' || c = '：' || c = '=' || c = '-'

/-- Match one leading label per the source regex
`^label(?:s*[:：=-]s*|s+)` (case-insensitive; the `\s` of the template
literal collapses to a literal `s`), returning the rest on success. -/
def matchLabel (label : List Char) (cs : List Char) : Option (List Char) :=
  if ciPre label cs then
    let rest := cs.drop label.length
    let sRun := rest.takeWhile (fun c => c.toLower = 's')
    let afterRun := rest.drop sRun.length
    match afterRun with
    | sep :: rest2 =>
      if isLabelSep sep then
        let sRun2 := rest2.takeWhile (fun c => c.toLower = 's')
        some (rest2.drop sRun2.length)
      else if sRun ≠ [] then some afterRun
      else none
    | [] => if sRun ≠ [] then some afterRun else none
  else none

/-- `ResponseParser.stripLeadingLabel`: strip the first matching label
of `labels` from the front of the trimmed value. -/
def stripLeadingLabel (value : String) (labels : List String) : String :=
  go value.jsTrim labels
where
  go (result : String) : List String → String
    | [] => result
    | label :: rest =>
      match matchLabel label.data result.data with
      | some remaining => (String.mk remaining).jsTrim
      | none => go result rest

/-- The wrapper pairs stripped by `normalizeFilePath`. -/
def wrappers : List (String × String) :=
  [("\"", "\""), (String.singleton squote, String.singleton squote),
   ("`", "`"), ("“", "”"), ("‘", "’"), ("«", "»"), ("**", "**"), ("*", "*")]

/-- One pass of the wrapper-stripping `for` loop of
`normalizeFilePath`; returns the updated string and the `updated`
flag. -/
def stripWrapPass (start : String) : String × Bool :=
  wrappers.foldl
    (fun acc wrap =>
      let result := acc.1
      if result.length ≥ wrap.1.length + wrap.2.length
          ∧ listPre wrap.1.data result.data
          ∧ listPre wrap.2.data.reverse result.data.reverse then
        ((String.mk ((result.data.drop wrap.1.length).take
            (result.length - wrap.1.length - wrap.2.length))).jsTrim, true)
      else acc)
    (start, false)

/-- The `while (updated)` loop of `normalizeFilePath` (fuel-indexed;
each updating pass strictly shrinks the string, so the string length
bounds the passes). -/
def stripWrapLoop : Nat → String → String
  | 0, r => r
  | fuel + 1, r =>
    let pass := stripWrapPass r
    if pass.2 then stripWrapLoop fuel pass.1 else r

/-- Characters removed from the edges after wrapper stripping. -/
def isStarTick (c : Char) : Bool := c = '*' || c = '`'

/-- `ResponseParser.normalizeFilePath`: trim, strip matched wrapper
pairs repeatedly, then strip leading/trailing `*`/`` ` `` runs and
trim. -/
def normalizeFilePath (value : String) : String :=
  let result := value.jsTrim
  if result = "" then ""
  else
    let unwrapped := stripWrapLoop (result.length + 1) result
    let noLead := unwrapped.data.dropWhile isStarTick
    let noTrail := (noLead.reverse.dropWhile isStarTick).reverse
    (String.mk noTrail).jsTrim

/-- `ResponseParser.parseCommandString`: recover a command request from
a bullet-style string. -/
def parseCommandString (value : String) : Option ShellCommandRequest :=
  let stripped := stripLeadingLabel ( stripListPrefix value) ["command", "cmd", "shell"]
  if stripped = "" then none
  else
    let split := splitValueAndDescription stripped
    if split.1 = "" then none
    else some ⟨split.1, split.2⟩

/-- `ResponseParser.parseFileActionString`: recover a file action from
a bullet-style string (type token, optional two-token type, filler-word
skipping, path and optional dash-separated description). -/
def parseFileActionString (value : String) : Option FileAction :=
  let stripped := stripLeadingLabel ( stripListPrefix value) ["file action", "file", "action"]
  if stripped = "" then none
  else
    let tokens := splitWsRuns stripped
    match tokens with
    | [] => none
    | t0 :: tRest =>
      let attempt1 := normalizeFileActionType (some t0)
      let typed : Option (FileActionType × List String) :=
        match attempt1 with
        | some ty => some (ty, tRest)
        | none =>
          match tRest with
          | t1 :: tRest2 =>
            match normalizeFileActionType (some (t0 ++ " " ++ t1)) with
            | some ty => some (ty, tRest2)
            | none => none
          | [] => none
      match typed with
      | none => none
      | some (ty, remTokens) =>
        let rem := remTokens.dropWhile (fun t => fillerWords.contains t.jsToLower)
        match rem with
        | [] => none
        | _ =>
          let remainder := String.intercalate " " rem
          let split := splitValueAndDescription remainder
          let path := normalizeFilePath split.1
          if path = "" then none
          else some ⟨ty, path, none, split.2⟩

/-- One entry of `ResponseParser.parseSteps`. -/
def stepOfEntry (entry : Json) : Option PlanStep :=
  match entry with
  | .str s =>
    let title := s.jsTrim
    if title = "" then none else some ⟨title, none, none⟩
  | .obj _ =>
    let title :=
      match entry.getField "title" with
      | some (.str t) => t.jsTrim
      | _ => ""
    if title = "" then none
    else
      let detailSource :=
        match entry.getField "detail" with
        | some (.str d) => some d
        | _ =>
          match entry.getField "description" with
          | some (.str d) => some d
          | _ => none
      let resultSource :=
        match entry.getField "result" with
        | some (.str r) => some r
        | _ =>
          match entry.getField "outcome" with
          | some (.str r) => some r
          | _ => none
      let detail :=
        match detailSource.map String.jsTrim with
        | some d => if d = "" then none else some d
        | none => none
      let result :=
        match resultSource.map String.jsTrim with
        | some r => if r = "" then none else some r
        | none => none
      some ⟨title, detail, result⟩
  | _ => none

/-- `ResponseParser.parseSteps`. -/
def parseSteps (value : Option Json) : List PlanStep :=
  match value with
  | some (.arr entries) => entries.filterMap stepOfEntry
  | _ => []

/-- One entry of `ResponseParser.parseStringArray`. -/
def stringArrayEntry (entry : Json) : Option String :=
  match entry with
  | .str s => if s.jsTrim = "" then none else some s.jsTrim
  | _ => none

/-- `ResponseParser.parseStringArray` (the diagnostic log when every
entry is rejected is an external effect and carries no data). -/
def parseStringArray (value : Option Json) : List String :=
  match value with
  | some (.arr entries) => entries.filterMap stringArrayEntry
  | _ => []

/-- One entry of `ResponseParser.parseCommands`. -/
def commandOfEntry (entry : Json) : Option ShellCommandRequest :=
  match entry with
  | .str s => parseCommandString s
  | .obj _ =>
    match entry.getField "command" with
    | some (.str c) =>
      let command := c.jsTrim
      if command = "" then none
      else
        let description :=
          match entry.getField "description" with
          | some (.str d) => some d
          | _ => none
        some ⟨command, description⟩
    | _ => none
  | _ => none

/-- `ResponseParser.parseCommands`. -/
def parseCommands (value : Option Json) : List ShellCommandRequest :=
  match value with
  | some (.arr entries) => entries.filterMap commandOfEntry
  | _ => []

/-- One entry of `ResponseParser.parseFileActions`. -/
def fileActionOfEntry (entry : Json) : Option FileAction :=
  match entry with
  | .str s => parseFileActionString s
  | .obj _ =>
    match normalizeFileActionType
        (getFirstString entry ["type", "action", "kind", "operation"]) with
    | none => none
    | some ty =>
      let path :=
        match getFirstString entry
            ["path", "file", "target", "uri", "filename", "filePath"] with
        | some rawPath => normalizeFilePath rawPath
        | none => ""
      if path = "" then none
      else
        let content := extractFileContent entry
        let description :=
          getFirstString entry ["description", "detail", "notes", "note", "summary"]
        some ⟨ty, path, content, description⟩
  | _ => none

/-- `ResponseParser.parseFileActions`. -/
def parseFileActions (value : Option Json) : List FileAction :=
  match value with
  | some (.arr entries) => entries.filterMap fileActionOfEntry
  | _ => []

/-- The remainder of the input from the line break terminating a `//`
comment (the line break itself is preserved). -/
def lineRemainder (cs : List Char) : List Char :=
  cs.dropWhile (fun ch => ¬(ch = '\n' ∨ ch = '\r'))

/-- Drop a `/* ... */` block comment body up to and including the
closing `*/`; an unterminated comment swallows the rest. -/
def dropBlockComment : List Char → List Char
  | '*' :: '/' :: rest => rest
  | _ :: rest => dropBlockComment rest
  | [] => []

/-- The comment-stripping scan of `stripJsonNoise` (fuel-indexed; every
step consumes input, so the input length bounds the steps).  The first
argument is the open string delimiter, if inside a string literal. -/
def stripCommentsF : Nat → Option Char → List Char → List Char
  | 0, _, cs => cs
  | _ + 1, _, [] => []
  | fuel + 1, some delim, c :: rest =>
    if c = '\\' then
      match rest with
      | [] => [c]
      | d :: rest2 => c :: d :: stripCommentsF fuel (some delim) rest2
    else if c = delim then c :: stripCommentsF fuel none rest
    else c :: stripCommentsF fuel (some delim) rest
  | fuel + 1, none, c :: rest =>
    if c = '"' || c = squote then c :: stripCommentsF fuel (some c) rest
    else
      match rest with
      | [] => [c]
      | next :: rest2 =>
        if c = '/' && next = '/' then stripCommentsF fuel none (lineRemainder rest2)
        else if c = '/' && next = '*' then stripCommentsF fuel none (dropBlockComment rest2)
        else c :: stripCommentsF fuel none (next :: rest2)

/-- The trailing-comma removal scan of `removeTrailingCommas`: a comma
whose next meaningful (non-whitespace) character is a closing bracket
is dropped; string literals are respected. -/
def removeTrailingCommasF : Nat → Option Char → List Char → List Char
  | 0, _, cs => cs
  | _ + 1, _, [] => []
  | fuel + 1, some delim, c :: rest =>
    if c = '\\' then
      match rest with
      | [] => [c]
      | d :: rest2 => c :: d :: removeTrailingCommasF fuel (some delim) rest2
    else if c = delim then c :: removeTrailingCommasF fuel none rest
    else c :: removeTrailingCommasF fuel (some delim) rest
  | fuel + 1, none, c :: rest =>
    if c = '"' || c = squote then c :: removeTrailingCommasF fuel (some c) rest
    else if c = ',' then
      match (rest.dropWhile isJsonWs).head? with
      | some n =>
        if n = '}' ∨ n = ']' then removeTrailingCommasF fuel none rest
        else c :: removeTrailingCommasF fuel none rest
      | none => c :: removeTrailingCommasF fuel none rest
    else c :: removeTrailingCommasF fuel none rest

/-- `ResponseParser.stripJsonNoise`: strip comments, then trailing
commas, then trim; `none` when nothing is left. -/
def stripJsonNoise (input : String) : Option String :=
  let withoutComments := stripCommentsF (input.length + 1) none input.data
  let cleaned :=
    removeTrailingCommasF (withoutComments.length + 1) none withoutComments
  let trimmed := (String.mk cleaned).jsTrim
  if trimmed = "" then none else some trimmed

/-- Scan for an unterminated `/* ...` block comment (string literals
respected), fuel-indexed like the strip scans. -/
def hasUntermCommentF : Nat → Option Char → List Char → Bool
  | 0, _, _ => false
  | _ + 1, _, [] => false
  | fuel + 1, some delim, c :: rest =>
    if c = '\\' then
      match rest with
      | [] => false
      | _ :: rest2 => hasUntermCommentF fuel (some delim) rest2
    else if c = delim then hasUntermCommentF fuel none rest
    else hasUntermCommentF fuel (some delim) rest
  | fuel + 1, none, c :: rest =>
    if c = '"' || c = squote then hasUntermCommentF fuel (some c) rest
    else
      match rest with
      | [] => false
      | next :: rest2 =>
        if c = '/' && next = '/' then hasUntermCommentF fuel none (lineRemainder rest2)
        else if c = '/' && next = '*' then
          if findSubIdx ['*', '/'] rest2 = none then true
          else hasUntermCommentF fuel none (dropBlockComment rest2)
        else hasUntermCommentF fuel none (next :: rest2)

/-- A model of the optional `jsonc-parser` dependency's `parse` with
`allowTrailingComma` and comments allowed: tolerates comments and
trailing commas, and reports an error (so the caller sees a non-empty
error list and discards the result) when a block comment is
unterminated or the remaining text is not valid JSON. -/
def jsoncParseModel (s : String) : Option Json :=
  if hasUntermCommentF (s.length + 1) none s.data then none
  else (stripJsonNoise s).bind jsonParse

/-- `ResponseParser.ensureObject`: keep only non-array, non-null JSON
objects. -/
def ensureObject (value : Json) : Option Json :=
  match value with
  | .obj _ => some value
  | _ => none

/-- `ResponseParser.tryParseStrict`: `JSON.parse` then `ensureObject`. -/
def tryParseStrict (candidate : String) : Option Json :=
  (jsonParse candidate).bind ensureObject

/-- `ResponseParser.fallbackLenientParse`: manual cleanup followed by a
strict parse (the missing-dependency warning is an external effect). -/
def fallbackLenientParse (candidate : String) : Option Json :=
  (stripJsonNoise candidate).bind tryParseStrict

/-- `ResponseParser.tryParseLenient`: the `jsonc-parser` dependency when
loaded (first argument), otherwise the manual fallback. -/
def tryParseLenient (jsonc : Option (String → Option Json)) (candidate : String) :
    Option Json :=
  match jsonc with
  | some lenient => (lenient candidate).bind ensureObject
  | none => fallbackLenientParse candidate

/-- Strip one kind of reasoning-trace block: every
`openTag ... closeTag` span (case-insensitive, non-greedy), an
unterminated trailing block extending to the end. -/
def stripTagBlocks (openTag closeTag : List Char) : Nat → List Char → List Char
  | 0, cs => cs
  | fuel + 1, cs =>
    match findSubIdxCI openTag cs with
    | none => cs
    | some i =>
      let pre := cs.take i
      let after := cs.drop (i + openTag.length)
      match findSubIdxCI closeTag after with
      | none => pre
      | some j =>
        pre ++ stripTagBlocks openTag closeTag fuel (after.drop (j + closeTag.length))

/-- `ResponseParser.stripReasoningTags`: remove `<think>` blocks, then
`<reflection>` blocks. -/
def stripReasoningTags (input : String) : String :=
  if input = "" then input
  else
    let withoutThink :=
      stripTagBlocks "<think>".data "</think>".data (input.length + 1) input.data
    String.mk
      (stripTagBlocks "<reflection>".data "</reflection>".data
        (withoutThink.length + 1) withoutThink)

/-- The fenced-block regex of `extractFromCodeFence`: the first
`` ``` `` occurrence followed (after an optional case-insensitive
`json` and optional whitespace) by a closing `` ``` ``; returns the
content span. -/
def fenceMatch (cs : List Char) : Option (List Char) :=
  let occ := subOccurrences ['`', '`', '`'] cs
  occ.findSome? fun i =>
    let afterTicks := i + 3
    let afterJson :=
      if ciPre ['j', 's', 'o', 'n'] (cs.drop afterTicks) then afterTicks + 4
      else afterTicks
    let contentStart :=
      afterJson + ((cs.drop afterJson).takeWhile (fun c => c.isWhitespace)).length
    match occ.find? (fun j => contentStart ≤ j) with
    | some j => some ((cs.drop contentStart).take (j - contentStart))
    | none => none

/-- `ResponseParser.extractFromCodeFence`: the regex capture when it is
non-empty; otherwise, for input starting with a fence, everything after
the first line up to the last closing fence. -/
def extractFromCodeFence (raw : String) : Option String :=
  let cs := raw.data
  let viaRegex :=
    match fenceMatch cs with
    | some capture => if capture ≠ [] then some ((String.mk capture).jsTrim) else none
    | none => none
  match viaRegex with
  | some s => some s
  | none =>
    if listPre ['`', '`', '`'] cs then
      match findCharIdx '\n' cs with
      | none => none
      | some k =>
        let afterFence := cs.drop (k + 1)
        let inside :=
          match findLastSubIdx ['`', '`', '`'] afterFence with
          | some closingIndex => afterFence.take closingIndex
          | none => afterFence
        let candidate := (String.mk inside).jsTrim
        if candidate ≠ "" then some candidate else none
    else none

/-- `ResponseParser.extractJsonObject`: the span from the first `{` to
the last `}`. -/
def extractJsonObject (raw : String) : Option String :=
  let cs := raw.data
  match findCharIdx '{' cs, findLastCharIdx '}' cs with
  | some firstBrace, some lastBrace =>
    if lastBrace ≤ firstBrace then none
    else
      let candidate := (String.mk ((cs.take (lastBrace + 1)).drop firstBrace)).jsTrim
      if candidate = "" then none else some candidate
  | _, _ => none

/-- `ResponseParser.pushCandidate`: append a non-blank, not yet seen
trimmed candidate. -/
def pushCandidate (attempts : List String) (candidate : Option String) :
    List String :=
  match candidate with
  | none => attempts
  | some c =>
    let trimmed := c.jsTrim
    if trimmed ≠ "" ∧ ¬ attempts.contains trimmed then attempts ++ [trimmed]
    else attempts

/-- `ResponseParser.buildParseAttempts`: the ordered, deduplicated list
of candidate strings — the trimmed input, the input with reasoning
traces removed, the fenced extraction, the brace extraction, and the
latter two after reasoning-trace removal. -/
def buildParseAttempts (raw : String) : List String :=
  let trimmed := raw.jsTrim
  let attempts0 := pushCandidate [] (some trimmed)
  let withoutReasoning := stripReasoningTags trimmed
  let attempts1 :=
    if withoutReasoning ≠ trimmed then pushCandidate attempts0 (some withoutReasoning)
    else attempts0
  let attempts2 := pushCandidate attempts1 (extractFromCodeFence trimmed)
  let attempts3 :=
    if withoutReasoning ≠ trimmed then
      pushCandidate attempts2 (extractFromCodeFence withoutReasoning)
    else attempts2
  let attempts4 := pushCandidate attempts3 (extractJsonObject trimmed)
  let attempts5 :=
    if withoutReasoning ≠ trimmed then
      pushCandidate attempts4 (extractJsonObject withoutReasoning)
    else attempts4
  attempts5

/-- `ResponseParser.safeParse`: try each candidate, strict then lenient;
the first candidate yielding a non-array object wins, otherwise the
parse error is raised. -/
def safeParse (jsonc : Option (String → Option Json)) (raw : String) :
    Except String Json :=
  match (buildParseAttempts raw).findSome?
      (fun c => (tryParseStrict c).orElse (fun _ => tryParseLenient jsonc c)) with
  | some parsed => .ok parsed
  | none => .error ("Failed to parse assistant response as JSON. Received: " ++ raw)

/-- The field-normalization phase of `ResponseParser.parse`, applied to
the winning object. -/
def planOfObject (parsed : Json) : Except String AssistantPlan := do
  let summary ← expectString (parsed.getField "summary") "summary" false
  let message ← expectString (parsed.getField "message") "message" true
  let steps := parseSteps (parsed.getField "steps")
  let liveLog := parseStringArray (parsed.fieldCoalesce ["liveLog", "workLog", "log"])
  let qaFindings :=
    parseStringArray (parsed.fieldCoalesce ["qaFindings", "qualityFindings"])
  let testResults :=
    parseStringArray
      (parsed.fieldCoalesce ["testResults", "tests", "testLog", "testOutcomes"])
  let commandRequests := parseCommands (parsed.getField "commandRequests")
  let fileActions := parseFileActions (parsed.getField "fileActions")
  return ⟨summary, message, steps, liveLog, qaFindings, testResults,
    commandRequests, fileActions⟩

/-- `ResponseParser.parse`: recover a plan from raw model output. -/
def parse (jsonc : Option (String → Option Json)) (raw : String) :
    Except String AssistantPlan := do
  planOfObject (← safeParse jsonc raw)

/-- The three-stage candidate scheme as the specification words it:
per candidate, (i) a strict parse, then (ii) the lenient parse, then
(iii) the manual character-scanning cleanup followed by a strict
parse.  (Stated from the specification for comparison with
`safeParse`, which only ever runs one of (ii)/(iii) per candidate.) -/
def safeParseThreeStage (lenient : String → Option Json) (raw : String) :
    Except String Json :=
  match (buildParseAttempts raw).findSome?
      (fun c =>
        ((tryParseStrict c).orElse
          (fun _ => (lenient c).bind ensureObject)).orElse
          (fun _ => fallbackLenientParse c)) with
  | some parsed => .ok parsed
  | none => .error ("Failed to parse assistant response as JSON. Received: " ++ raw)

/-- `ResponseParser.parse` over the three-stage scheme of the
specification (for the comparison theorems). -/
def parseThreeStage (lenient : String → Option Json) (raw : String) :
    Except String AssistantPlan := do
  planOfObject (← safeParseThreeStage lenient raw)

/-- The per-candidate scheme the code implements when the
`jsonc-parser` dependency is present: a strict parse, then the library
parse as the only lenient stage (the manual cleanup never runs). -/
def safeParseLibraryLenient (lenient : String → Option Json) (raw : String) :
    Except String Json :=
  match (buildParseAttempts raw).findSome?
      (fun c => (tryParseStrict c).orElse (fun _ => (lenient c).bind ensureObject)) with
  | some parsed => .ok parsed
  | none => .error ("Failed to parse assistant response as JSON. Received: " ++ raw)

/-- The per-candidate scheme when the dependency is absent: a strict
parse, then the manual cleanup as the only lenient stage. -/
def safeParseManualLenient (raw : String) : Except String Json :=
  match (buildParseAttempts raw).findSome?
      (fun c => (tryParseStrict c).orElse (fun _ => fallbackLenientParse c)) with
  | some parsed => .ok parsed
  | none => .error ("Failed to parse assistant response as JSON. Received: " ++ raw)

end ResponseParser

/-! ## Node `path` (POSIX) as used by `FileActionExecutor` -/

/-- Core of `path.normalize`: process `.`/`..`/empty segments; inside an
absolute path a leading `..` is dropped at the root, inside a relative
path leading `..` segments are preserved.  The first list is the
accumulator in reverse order. -/
def normCore (abs : Bool) : List String → List String → List String
  | acc, [] => acc.reverse
  | acc, s :: rest =>
    if s = "" ∨ s = "." then normCore abs acc rest
    else if s = ".." then
      match acc with
      | [] => if abs then normCore abs [] rest else normCore abs [".."] rest
      | a :: tl =>
        if a = ".." ∧ ¬abs then normCore abs (".." :: acc) rest
        else normCore abs tl rest
    else normCore abs (s :: acc) rest

/-- Split a path on `/` separators, keeping empty pieces. -/
def splitOnSlash (p : String) : List String :=
  (splitByPred (fun c => c = '/') p.data).map (fun cs => String.mk cs)

/-- `path.isAbsolute` (POSIX). -/
def pathIsAbsolute (p : String) : Bool := listPre ['/'] p.data

/-- `path.normalize` (POSIX): resolve `.` and `..` segments and collapse
separators. -/
def pathNormalize (p : String) : String :=
  if p = "" then "."
  else
    let abs := pathIsAbsolute p
    let out := normCore abs [] (splitOnSlash p)
    if abs then "/" ++ String.intercalate "/" out
    else
      let body := String.intercalate "/" out
      if body = "" then "." else body

/-- `path.join` (POSIX): join the non-empty parts and normalize. -/
def pathJoinList (parts : List String) : String :=
  let nonEmpty := parts.filter (· ≠ "")
  if nonEmpty = [] then "." else pathNormalize (String.intercalate "/" nonEmpty)

/-- `path.resolve` with a single argument, against the process working
directory `cwd` (assumed absolute). -/
def pathResolve (cwd p : String) : String :=
  if pathIsAbsolute p then pathNormalize p else pathNormalize (cwd ++ "/" ++ p)

/-- The non-empty segments of the resolved form of a path. -/
def resolvedSegs (cwd p : String) : List String :=
  (splitOnSlash (pathResolve cwd p)).filter (· ≠ "")

/-- Length of the longest common prefix of two segment lists. -/
def commonPrefixLen : List String → List String → Nat
  | a :: as, b :: bs => if a = b then 1 + commonPrefixLen as bs else 0
  | _, _ => 0

/-- The segments of `path.relative from to` on resolved segment lists:
one `..` per uncommon `from` segment, then the uncommon `to`
segments. -/
def relSegs (fromSegs toSegs : List String) : List String :=
  List.replicate (fromSegs.length - commonPrefixLen fromSegs toSegs) ".."
    ++ toSegs.drop (commonPrefixLen fromSegs toSegs)

/-- Segment list joined with `/`, as characters. -/
def joinSegsChars : List String → List Char
  | [] => []
  | [s] => s.data
  | s :: rest => s.data ++ '/' :: joinSegsChars rest

/-- The characters of `path.relative cwd hsFrom hsTo`. -/
def pathRelativeChars (cwd pFrom pTo : String) : List Char :=
  joinSegsChars (relSegs (resolvedSegs cwd pFrom) (resolvedSegs cwd pTo))

/-- Does a character list start with `..`? -/
def startsDotDot : List Char → Bool
  | '.' :: '.' :: _ => true
  | _ => false

/-- Does a character list start with `/`? -/
def startsSlash : List Char → Bool
  | '/' :: _ => true
  | _ => false

/-! ## `FileActionExecutor` (`src/assistant/fileActionExecutor.ts`) -/

namespace FileActionExecutor

/-- A VS Code workspace folder: display name and filesystem path. -/
structure WorkspaceFolder where
  name : String
  fsPath : String
deriving DecidableEq

/-- `FileActionExecutor.isInsideWorkspace`: the target is inside the
root iff `path.relative(root, target)` is empty, or neither starts
with `..` nor is absolute (never a naive string-prefix test). -/
def isInsideWorkspace (cwd targetPath workspaceRoot : String) : Bool :=
  let rel := pathRelativeChars cwd workspaceRoot targetPath
  rel.isEmpty || (!startsDotDot rel && !startsSlash rel)

/-- `FileActionExecutor.getOrderedWorkspaceFolders`: the folder of the
active editor (always one of the open folders) first, then the rest. -/
def getOrderedWorkspaceFolders (folders : List WorkspaceFolder)
    (active : Option WorkspaceFolder) : List WorkspaceFolder :=
  match active with
  | some f => if folders.contains f then f :: folders.filter (· ≠ f) else folders
  | none => folders

/-- The segments of `normalized.split(/[\\/]/).filter(Boolean)`. -/
def pathSegments (s : String) : List String :=
  ((splitByPred (fun c => c = '/' || c = '\\') s.data).filter (· ≠ [])).map
    (fun cs => String.mk cs)

/-- `FileActionExecutor.resolveUri`: resolve an action path to an
absolute location constrained to an open workspace root, or `none`. -/
def resolveUri (cwd : String) (folders : List WorkspaceFolder)
    (active : Option WorkspaceFolder) (filePath : String) : Option String :=
  if folders = [] then none
  else
    let normalized := pathNormalize filePath
    let orderedFolders := getOrderedWorkspaceFolders folders active
    let segments := pathSegments normalized
    if pathIsAbsolute normalized then
      let candidate := pathNormalize normalized
      match orderedFolders.find? (fun f => isInsideWorkspace cwd candidate f.fsPath) with
      | some _ => some candidate
      | none =>
        match segments with
        | maybeWorkspace :: rest =>
          if rest ≠ [] then
            match folders.find?
                (fun f => f.name.jsToLower = maybeWorkspace.jsToLower) with
            | some matching =>
              let fallback := pathJoinList (matching.fsPath :: rest)
              if isInsideWorkspace cwd fallback matching.fsPath then some fallback
              else none
            | none => none
          else none
        | [] => none
    else
      match segments with
      | targetFirst :: trimmedSegments =>
        match folders.find? (fun f => f.name.jsToLower = targetFirst.jsToLower) with
        | some matching =>
          if trimmedSegments = [] then none
          else
            let relativePath := String.intercalate "/" trimmedSegments
            let prioritized := matching :: orderedFolders.filter (· ≠ matching)
            (prioritized.find? (fun f =>
                isInsideWorkspace cwd (pathJoinList [f.fsPath, relativePath]) f.fsPath)).map
              (fun f => pathJoinList [f.fsPath, relativePath])
        | none =>
          (orderedFolders.find? (fun f =>
              isInsideWorkspace cwd (pathJoinList [f.fsPath, normalized]) f.fsPath)).map
            (fun f => pathJoinList [f.fsPath, normalized])
      | [] =>
        (orderedFolders.find? (fun f =>
            isInsideWorkspace cwd (pathJoinList [f.fsPath, normalized]) f.fsPath)).map
          (fun f => pathJoinList [f.fsPath, normalized])

/-- The observable outcome of `applySingle` for one action: success
(applied, rejected, or skipped), an ordinary failure (shown as an error
message, the loop continues), or a thrown `CancellationError` (from one
of the cancellation checks inside the action). -/
inductive ActionOutcome where
  | success : ActionOutcome
  | failure : ActionOutcome
  | cancelledErr : ActionOutcome
deriving DecidableEq

/-- The `for` loop of `FileActionExecutor.apply`: `outcomes i` is the
result of `applySingle` on action `i`, `cancelled i` the state of the
cancellation token at the top-of-loop check for action `i`.  Returns
whether the batch completed without a cancellation throw, and the list
of indices whose action was started. -/
def applyLoop (outcomes : Nat → ActionOutcome) (cancelled : Nat → Bool) :
    List FileAction → Nat → Bool × List Nat
  | [], _ => (true, [])
  | _ :: rest, index =>
    if cancelled index then (false, [])
    else
      match outcomes index with
      | .cancelledErr => (false, [index])
      | _ =>
        let r := applyLoop outcomes cancelled rest (index + 1)
        (r.1, index :: r.2)

/-- `FileActionExecutor.apply` on a batch of actions. -/
def apply (actions : List FileAction) (outcomes : Nat → ActionOutcome)
    (cancelled : Nat → Bool) : Bool × List Nat :=
  applyLoop outcomes cancelled actions 0

end FileActionExecutor

/-! ## `AssistantController` (`src/assistant/assistantController.ts`) -/

namespace AssistantController

/-- `DEFAULT_MODEL_ID` from the source. -/
def DEFAULT_MODEL_ID : String := "ollama:qwen3:4b"

/-- The sentinel ids for "inherit" selections in the chat view. -/
def REVIEWER_INHERIT_MODEL_ID : String := "__planner__"

/-- `AssistantController.isOllamaModelId`: case-insensitive
`ollama:`-prefix test on the trimmed value. -/
def isOllamaModelId (value : String) : Bool :=
  listPre "ollama:".data value.jsTrim.jsToLower.data

/-- `AssistantController.resolveModelId`: non-string or blank settings
fall back to the default; otherwise normalize to an `ollama:` id. -/
def resolveModelId (modelId : Option String) : String :=
  match modelId with
  | none => DEFAULT_MODEL_ID
  | some s =>
    let trimmed := s.jsTrim
    if trimmed = "" then DEFAULT_MODEL_ID
    else if isOllamaModelId trimmed then trimmed
    else "ollama:" ++ trimmed

/-- The model-id settings as stored in the VS Code configuration
(`none` models a non-string value). -/
structure ModelSettings where
  modelId : Option String
  collaboratorModelId : Option String
  coderModelId : Option String
  verifierModelId : Option String
deriving DecidableEq

/-- The planner model id resolved by `getConfiguration`. -/
def resolvedPlannerId (s : ModelSettings) : String := resolveModelId s.modelId

/-- The reviewer model id resolved by `getConfiguration`: a blank or
non-string setting inherits the resolved planner id. -/
def resolvedReviewerId (s : ModelSettings) : String :=
  match s.collaboratorModelId with
  | some c => if c.jsTrim ≠ "" then resolveModelId (some c) else resolvedPlannerId s
  | none => resolvedPlannerId s

/-- The coder model id resolved by `getConfiguration`: inherits the
resolved reviewer id. -/
def resolvedCoderId (s : ModelSettings) : String :=
  match s.coderModelId with
  | some c => if c.jsTrim ≠ "" then resolveModelId (some c) else resolvedReviewerId s
  | none => resolvedReviewerId s

/-- The verifier model id resolved by `getConfiguration`: inherits the
resolved coder id. -/
def resolvedVerifierId (s : ModelSettings) : String :=
  match s.verifierModelId with
  | some c => if c.jsTrim ≠ "" then resolveModelId (some c) else resolvedCoderId s
  | none => resolvedCoderId s

/-- `AssistantController.handlePlannerModelSelection`: update the
`modelId` setting to the normalized selection (no-op on a blank
selection or when the resolved id is unchanged). -/
def handlePlannerModelSelection (s : ModelSettings) (modelId : String) :
    ModelSettings :=
  let trimmed := modelId.jsTrim
  if trimmed = "" then s
  else
    let normalized := resolveModelId (some trimmed)
    match s.modelId with
    | some current =>
      if resolveModelId (some current) = normalized then s
      else ⟨some normalized, s.collaboratorModelId, s.coderModelId, s.verifierModelId⟩
    | none => ⟨some normalized, s.collaboratorModelId, s.coderModelId, s.verifierModelId⟩

/-- `AssistantController.handleReviewerModelSelection`: the inherit
sentinel or a blank selection clears `collaboratorModelId`; otherwise
the setting is pinned to the normalized selection (no-op when the
resolved id is unchanged). -/
def handleReviewerModelSelection (s : ModelSettings) (modelId : String) :
    ModelSettings :=
  if modelId = REVIEWER_INHERIT_MODEL_ID then
    ⟨s.modelId, some "", s.coderModelId, s.verifierModelId⟩
  else
    let trimmed := modelId.jsTrim
    if trimmed = "" then
      ⟨s.modelId, some "", s.coderModelId, s.verifierModelId⟩
    else
      let normalized := resolveModelId (some trimmed)
      let unchanged : Bool :=
        match s.collaboratorModelId with
        | some current =>
          (if current.jsTrim ≠ "" then resolveModelId (some current) else "") = normalized
        | none => false
      if unchanged then s
      else ⟨s.modelId, some normalized, s.coderModelId, s.verifierModelId⟩

/-- The resolved `AssistantConfiguration` model ids consumed by
`invokeCollaborativePlan`. -/
structure TurnConfig where
  modelId : String
  collaboratorModelId : String
  coderModelId : String
  verifierModelId : String
deriving DecidableEq

/-- JavaScript `a || b` on strings: `b` when `a` is empty. -/
def jsOr (a b : String) : String := if a = "" then b else a

/-- The four `LocalModel` fields of the controller — the model-handle
slots. -/
inductive ModelHandle where
  | planner : ModelHandle
  | reviewer : ModelHandle
  | coder : ModelHandle
  | verifier : ModelHandle
deriving DecidableEq

/-- `reviewerId` as computed in `invokeCollaborativePlan`. -/
def reviewerId (c : TurnConfig) : String := jsOr c.collaboratorModelId c.modelId

/-- The handle chosen for the reviewer role. -/
def reviewerHandle (c : TurnConfig) : ModelHandle :=
  if reviewerId c = c.modelId then .planner else .reviewer

/-- `coderId` as computed in `invokeCollaborativePlan`. -/
def coderId (c : TurnConfig) : String := jsOr c.coderModelId (reviewerId c)

/-- The handle chosen for the coder role (also used by QA and safety). -/
def coderHandle (c : TurnConfig) : ModelHandle :=
  if coderId c = c.modelId then .planner
  else if coderId c = reviewerId c then reviewerHandle c
  else .coder

/-- `verifierId` as computed in `invokeCollaborativePlan`. -/
def verifierId (c : TurnConfig) : String := jsOr c.verifierModelId (coderId c)

/-- The handle chosen for the verifier role. -/
def verifierHandle (c : TurnConfig) : ModelHandle :=
  if verifierId c = c.modelId then .planner
  else if verifierId c = reviewerId c then reviewerHandle c
  else if verifierId c = coderId c then coderHandle c
  else .verifier

/-- The seven collaborative roles, in invocation order. -/
inductive Role where
  | contextScout : Role
  | planner : Role
  | coder : Role
  | reviewer : Role
  | qa : Role
  | safety : Role
  | verifier : Role
deriving DecidableEq

/-- The resolved model id each role generates with. -/
def roleModelId (c : TurnConfig) : Role → String
  | .contextScout => c.modelId
  | .planner => c.modelId
  | .coder => coderId c
  | .reviewer => reviewerId c
  | .qa => coderId c
  | .safety => coderId c
  | .verifier => verifierId c

/-- The model handle each role's invocation is routed through. -/
def roleHandle (c : TurnConfig) : Role → ModelHandle
  | .contextScout => .planner
  | .planner => .planner
  | .coder => coderHandle c
  | .reviewer => reviewerHandle c
  | .qa => coderHandle c
  | .safety => coderHandle c
  | .verifier => verifierHandle c

/-- `ConversationMessage` from `src/types.ts`. -/
structure ConversationMessage where
  role : String
  content : String
deriving DecidableEq

/-- `AssistantRequest` from `src/types.ts`. -/
structure AssistantRequest where
  prompt : String
  context : String
  history : List ConversationMessage
deriving DecidableEq

/-- The truncation applied to a raw response before it is appended to
the per-attempt history (4000 characters plus an ellipsis). -/
def truncateResponse (raw : String) : String :=
  if raw.length > 4000 then String.mk (raw.data.take 4000) ++ "…" else raw

/-- The corrective user instruction appended after a parse failure. -/
def parseReminder (parseFailures : Nat) : String :=
  if parseFailures = 1 then
    "Your previous reply could not be parsed as JSON. Respond again using only valid JSON matching the required schema. Do not include markdown fences or extra commentary."
  else
    "Reminder: respond with valid JSON only, matching the required schema. Do not include markdown fences or extra commentary."

/-- The two messages appended to the per-attempt history after the
`parseFailures`-th parse failure. -/
def correctionMessages (raw : String) (parseFailures : Nat) :
    List ConversationMessage :=
  [⟨"assistant", truncateResponse raw⟩, ⟨"user", parseReminder parseFailures⟩]

/-- The `while (true)` loop of
`AssistantController.generatePlanWithRetries` (fuel-indexed purely to
express the unbounded loop as a total function): `respond` gives the
verifier's raw response for a given attempt history and attempt
number, `parsePlan` is the response parser. -/
def generatePlanRetries (respond : List ConversationMessage → Nat → String)
    (parsePlan : String → Except String AssistantPlan) :
    Nat → List ConversationMessage → Nat → Nat → Option (AssistantPlan × String)
  | 0, _, _, _ => none
  | fuel + 1, hist, attempt, parseFailures =>
    let raw := respond hist attempt
    match parsePlan raw with
    | .ok plan => some (plan, raw)
    | .error _ =>
      generatePlanRetries respond parsePlan fuel
        (hist ++ correctionMessages raw (parseFailures + 1)) (attempt + 1)
        (parseFailures + 1)

/-- `AssistantController.generatePlanWithRetries`: start from a copy of
the stored history, attempt 1, no failures. -/
def generatePlanWithRetries (respond : List ConversationMessage → Nat → String)
    (parsePlan : String → Except String AssistantPlan)
    (history : List ConversationMessage) (fuel : Nat) :
    Option (AssistantPlan × String) :=
  generatePlanRetries respond parsePlan fuel history 1 0

/-- The per-attempt history before attempt `n + 1`, for a run whose
first `n` attempts all failed to parse. -/
def attemptHistoryAt (respond : List ConversationMessage → Nat → String)
    (history : List ConversationMessage) : Nat → List ConversationMessage
  | 0 => history
  | n + 1 =>
    let h := attemptHistoryAt respond history n
    h ++ correctionMessages (respond h (n + 1)) (n + 1)

/-- The successive accumulated-text snapshots handed to the `onStream`
callback, one per received chunk. -/
def chunkSnapshots (chunks : List String) : List String :=
  go "" chunks
where
  go (acc : String) : List String → List String
    | [] => []
    | c :: rest => (acc ++ c) :: go (acc ++ c) rest

/-- `AssistantController.invokeSingleModel`: accumulate streamed
chunks, fall back to the returned text when nothing streamed, fail on a
blank response, and emit snapshots plus a final `onComplete` snapshot
when streaming callbacks are installed.  Returns the trimmed response
and the list of emitted snapshots. -/
def invokeSingleModel (role : String) (chunks : List String) (generated : String)
    (streaming : Bool) : Except String String × List String :=
  let streamed := String.join chunks
  let streamEvents := if streaming then chunkSnapshots chunks else []
  let response := if streamed = "" then generated else streamed
  let lateEvent :=
    if streamed = "" ∧ streaming ∧ response ≠ "" then [response] else []
  let trimmed := response.jsTrim
  if trimmed = "" then
    (.error (role ++ " model returned an empty response."), streamEvents ++ lateEvent)
  else (.ok trimmed, streamEvents ++ lateEvent ++ [trimmed])

/-- The request handed to every role after the context scout: the
briefing and a steering instruction are appended to a copy of the
history. -/
def contextRequest (request : AssistantRequest) (briefing : String) :
    AssistantRequest :=
  ⟨request.prompt, request.context,
    request.history ++
      [⟨"assistant", "Context scout briefing:\n" ++ briefing⟩,
       ⟨"user",
        "Incorporate the context scout briefing above. If essential artifacts are missing, highlight them in liveLog and steps before proceeding."⟩]⟩

/-- One role invocation inside `invokeCollaborativePlan`: build the
prompt from the request and the upstream output, generate, and stream
when enabled.  `build` is the registered prompt-construction strategy,
`gen` the inference boundary (chunks and returned text per prompt). -/
def runRole (build : Role → AssistantRequest → Option String → String)
    (gen : Role → String → List String × String) (role : Role) (roleName : String)
    (request : AssistantRequest) (upstream : Option String) (streaming : Bool) :
    Except String String × List String :=
  let prompt := build role request upstream
  let g := gen role prompt
  invokeSingleModel roleName g.1 g.2 streaming

/-- `AssistantController.invokeCollaborativePlan`: the seven-role
chain.  Returns the verifier's raw output (the turn's raw response)
and every streamed snapshot emitted along the way. -/
def invokeCollaborativePlan (build : Role → AssistantRequest → Option String → String)
    (gen : Role → String → List String × String) (request : AssistantRequest)
    (streaming : Bool) : Except String String × List String :=
  match runRole build gen .contextScout "ContextScout" request none streaming with
  | (.error e, ev) => (.error e, ev)
  | (.ok briefing, ev0) =>
    let requestWithContext := contextRequest request briefing
    match runRole build gen .planner "Planner" requestWithContext none streaming with
    | (.error e, ev) => (.error e, ev0 ++ ev)
    | (.ok plannerDraft, ev1) =>
      match runRole build gen .coder "Coder" requestWithContext (some plannerDraft)
          streaming with
      | (.error e, ev) => (.error e, ev0 ++ ev1 ++ ev)
      | (.ok coderPlan, ev2) =>
        match runRole build gen .reviewer "Reviewer" requestWithContext
            (some coderPlan) streaming with
        | (.error e, ev) => (.error e, ev0 ++ ev1 ++ ev2 ++ ev)
        | (.ok reviewerPlan, ev3) =>
          match runRole build gen .qa "QA" requestWithContext (some reviewerPlan)
              streaming with
          | (.error e, ev) => (.error e, ev0 ++ ev1 ++ ev2 ++ ev3 ++ ev)
          | (.ok qaPlan, ev4) =>
            match runRole build gen .safety "Safety" requestWithContext
                (some qaPlan) streaming with
            | (.error e, ev) => (.error e, ev0 ++ ev1 ++ ev2 ++ ev3 ++ ev4 ++ ev)
            | (.ok safetyPlan, ev5) =>
              match runRole build gen .verifier "Verifier" requestWithContext
                  (some safetyPlan) streaming with
              | (.error e, ev) =>
                (.error e, ev0 ++ ev1 ++ ev2 ++ ev3 ++ ev4 ++ ev5 ++ ev)
              | (.ok verifiedPlan, ev6) =>
                (.ok verifiedPlan, ev0 ++ ev1 ++ ev2 ++ ev3 ++ ev4 ++ ev5 ++ ev6)

/-- One full turn: the collaborative chain followed by recovery; the
raw response and the recovered plan. -/
def runTurn (build : Role → AssistantRequest → Option String → String)
    (gen : Role → String → List String × String)
    (jsonc : Option (String → Option Json)) (request : AssistantRequest)
    (streaming : Bool) :
    Except String (String × Except String AssistantPlan) × List String :=
  match invokeCollaborativePlan build gen request streaming with
  | (.ok raw, ev) => (.ok (raw, ResponseParser.parse jsonc raw), ev)
  | (.error e, ev) => (.error e, ev)

end AssistantController

/-! ## Plan serialization (for the idempotent-recovery property) -/

/-- Serialize one step as a JSON object, omitting absent fields. -/
def stepToJson (st : PlanStep) : Json :=
  .obj ([("title", .str st.title)]
    ++ (match st.detail with
        | some d => [("detail", Json.str d)]
        | none => [])
    ++ (match st.result with
        | some r => [("result", Json.str r)]
        | none => []))

/-- Serialize one command request as a JSON object. -/
def commandToJson (c : ShellCommandRequest) : Json :=
  .obj ([("command", .str c.command)]
    ++ (match c.description with
        | some d => [("description", Json.str d)]
        | none => []))

/-- The wire string of a file-action type. -/
def fileActionTypeStr : FileActionType → String
  | .create => "create"
  | .edit => "edit"
  | .delete => "delete"

/-- Serialize one file action as a JSON object. -/
def fileActionToJson (a : FileAction) : Json :=
  .obj ([("type", .str (fileActionTypeStr a.type)), ("path", .str a.path)]
    ++ (match a.content with
        | some s => [("content", Json.str s)]
        | none => [])
    ++ (match a.description with
        | some d => [("description", Json.str d)]
        | none => []))

/-- The eight members of a serialized plan object, in wire order. -/
def planToJsonFields (p : AssistantPlan) : List (String × Json) :=
  [("summary", .str p.summary), ("message", .str p.message),
   ("steps", .arr (p.steps.map stepToJson)),
   ("liveLog", .arr (p.liveLog.map Json.str)),
   ("qaFindings", .arr (p.qaFindings.map Json.str)),
   ("testResults", .arr (p.testResults.map Json.str)),
   ("commandRequests", .arr (p.commandRequests.map commandToJson)),
   ("fileActions", .arr (p.fileActions.map fileActionToJson))]

/-- Serialize a plan as the plain JSON object of the wire format, every
top-level key present. -/
def planToJson (p : AssistantPlan) : Json :=
  .obj (planToJsonFields p)

/-- A plan serialized as a plain JSON object: no fences, no comments,
no surrounding prose. -/
def serializePlan (p : AssistantPlan) : String :=
  String.mk (renderJson (planToJson p))

/-- A string that is its own trim and non-empty — the normal form the
parser produces for titles, log entries and commands. -/
def trimmedNonEmpty (s : String) : Prop := s.jsTrim = s ∧ s ≠ ""

instance (s : String) : Decidable (trimmedNonEmpty s) :=
  inferInstanceAs (Decidable (s.jsTrim = s ∧ s ≠ ""))

instance decOptionForall {α : Type} (p : α → Prop) [DecidablePred p] :
    (o : Option α) → Decidable (∀ a, o = some a → p a)
  | none => isTrue (fun a h => by cases h)
  | some x =>
    if h : p x then isTrue (fun a ha => by cases ha; exact h)
    else isFalse (fun hall => h (hall x rfl))

/-- Schema invariants of a step. -/
def wellFormedStep (st : PlanStep) : Prop :=
  trimmedNonEmpty st.title
    ∧ (∀ d, st.detail = some d → trimmedNonEmpty d)
    ∧ (∀ r, st.result = some r → trimmedNonEmpty r)

instance (st : PlanStep) : Decidable (wellFormedStep st) :=
  inferInstanceAs (Decidable (trimmedNonEmpty st.title
    ∧ (∀ d, st.detail = some d → trimmedNonEmpty d)
    ∧ (∀ r, st.result = some r → trimmedNonEmpty r)))

/-- Schema invariants of a command request. -/
def wellFormedCommand (c : ShellCommandRequest) : Prop :=
  trimmedNonEmpty c.command

instance (c : ShellCommandRequest) : Decidable (wellFormedCommand c) :=
  inferInstanceAs (Decidable (trimmedNonEmpty c.command))

/-- Schema invariants of a file action: a non-empty path in normal form
(no wrapping quotes or emphasis, no surrounding whitespace) and a
non-blank trimmed description when present. -/
def wellFormedAction (a : FileAction) : Prop :=
  a.path ≠ "" ∧ ResponseParser.normalizeFilePath a.path = a.path
    ∧ (∀ d, a.description = some d → trimmedNonEmpty d)

instance (a : FileAction) : Decidable (wellFormedAction a) :=
  inferInstanceAs (Decidable (a.path ≠ ""
    ∧ ResponseParser.normalizeFilePath a.path = a.path
    ∧ (∀ d, a.description = some d → trimmedNonEmpty d)))

/-- The schema invariants of a well-formed plan: non-blank summary, a
message that is empty or non-blank, and normal-form items
throughout. -/
def wellFormedPlan (p : AssistantPlan) : Prop :=
  p.summary.jsTrim ≠ ""
    ∧ (p.message.jsTrim = "" → p.message = "")
    ∧ (∀ st ∈ p.steps, wellFormedStep st)
    ∧ (∀ s ∈ p.liveLog, trimmedNonEmpty s)
    ∧ (∀ s ∈ p.qaFindings, trimmedNonEmpty s)
    ∧ (∀ s ∈ p.testResults, trimmedNonEmpty s)
    ∧ (∀ c ∈ p.commandRequests, wellFormedCommand c)
    ∧ (∀ a ∈ p.fileActions, wellFormedAction a)

instance (p : AssistantPlan) : Decidable (wellFormedPlan p) :=
  inferInstanceAs (Decidable (p.summary.jsTrim ≠ ""
    ∧ (p.message.jsTrim = "" → p.message = "")
    ∧ (∀ st ∈ p.steps, wellFormedStep st)
    ∧ (∀ s ∈ p.liveLog, trimmedNonEmpty s)
    ∧ (∀ s ∈ p.qaFindings, trimmedNonEmpty s)
    ∧ (∀ s ∈ p.testResults, trimmedNonEmpty s)
    ∧ (∀ c ∈ p.commandRequests, wellFormedCommand c)
    ∧ (∀ a ∈ p.fileActions, wellFormedAction a)))

/-- A concrete well-formed plan exercising every field. -/
def samplePlan : AssistantPlan :=
  ⟨"Create the script", "", [⟨"Write a.py", some "one print line", some "done"⟩],
   ["created a.py"], ["no issues"], ["not run"],
   [⟨"python a.py", some " runs the script "⟩],
   [⟨.create, "a.py", some "print(1)\n", some "new file"⟩]⟩

/-! ## Helper lemmas: the strict parser inverts the renderer -/

theorem stringMkData (s : String) : String.mk s.data = s := by
  cases s
  rfl

theorem skipWs_cons (c : Char) (cs : List Char) (h : isJsonWs c = false) :
    skipWs (c :: cs) = c :: cs := by
  simp [skipWs, List.dropWhile_cons, h]

theorem jsize_pos (v : Json) : 1 ≤ jsize v := by
  cases v <;> simp [jsize]

theorem jsizeList_pos (xs : List Json) : 1 ≤ jsizeList xs := by
  cases xs <;> simp [jsizeList] <;> omega

theorem jsizeObj_pos (kvs : List (String × Json)) : 1 ≤ jsizeObj kvs := by
  cases kvs <;> simp [jsizeObj] <;> omega

theorem jsize_lt_of_mem_list {x : Json} {xs : List Json} (h : x ∈ xs) :
    jsize x < jsizeList xs := by
  induction xs with
  | nil => cases h
  | cons y ys ih =>
    rcases List.mem_cons.mp h with rfl | hm
    · have := jsizeList_pos ys
      simp [jsizeList]
      omega
    · have := ih hm
      simp [jsizeList]
      omega

theorem jsize_lt_of_mem_obj {kv : String × Json} {kvs : List (String × Json)}
    (h : kv ∈ kvs) : jsize kv.2 < jsizeObj kvs := by
  induction kvs with
  | nil => cases h
  | cons p ps ih =>
    rcases List.mem_cons.mp h with rfl | hm
    · have := jsizeObj_pos ps
      simp [jsizeObj]
      omega
    · have := ih hm
      simp [jsizeObj]
      omega

theorem numFree_of_mem_list {x : Json} {xs : List Json} (hx : x ∈ xs)
    (h : numFreeList xs = true) : numFree x = true := by
  induction xs with
  | nil => cases hx
  | cons y ys ih =>
    simp only [numFreeList, Bool.and_eq_true] at h
    rcases List.mem_cons.mp hx with rfl | hm
    · exact h.1
    · exact ih hm h.2

theorem numFree_of_mem_obj {kv : String × Json} {kvs : List (String × Json)}
    (hx : kv ∈ kvs) (h : numFreeObj kvs = true) : numFree kv.2 = true := by
  induction kvs with
  | nil => cases hx
  | cons p ps ih =>
    simp only [numFreeObj, Bool.and_eq_true] at h
    rcases List.mem_cons.mp hx with rfl | hm
    · exact h.1
    · exact ih hm h.2

/-- The rendering of a number-free value starts with a non-whitespace
character that is not a closing bracket or comma. -/
theorem renderJson_head (v : Json) (hv : numFree v = true) :
    ∃ c t, renderJson v = c :: t ∧ isJsonWs c = false
      ∧ c ≠ ']' ∧ c ≠ '}' ∧ c ≠ ',' := by
  cases v with
  | null => exact ⟨'n', _, rfl, by decide, by decide, by decide, by decide⟩
  | bool b =>
    cases b
    · exact ⟨'f', _, rfl, by decide, by decide, by decide, by decide⟩
    · exact ⟨'t', _, rfl, by decide, by decide, by decide, by decide⟩
  | num n => simp [numFree] at hv
  | str s => exact ⟨'"', _, rfl, by decide, by decide, by decide, by decide⟩
  | arr xs => exact ⟨'[', _, rfl, by decide, by decide, by decide, by decide⟩
  | obj kvs => exact ⟨'{', _, rfl, by decide, by decide, by decide, by decide⟩

theorem parseStrChars_render (l rest : List Char) :
    parseStrChars ((l.map escChar).flatten ++ '"' :: rest) = some (l, rest) := by
  induction l with
  | nil =>
    rw [show ((List.map escChar []).flatten ++ '"' :: rest) = '"' :: rest by simp]
    rw [parseStrChars.eq_def]
    simp
  | cons c l ih =>
    simp only [List.map_cons, List.flatten_cons, List.append_assoc]
    rw [escChar]
    split_ifs with h1 h2 h3 h4 h5 h6 h7 <;>
      first
      | (subst h1; rw [parseStrChars.eq_def]; simp [unescChar, ih])
      | (subst h2; rw [parseStrChars.eq_def]; simp [unescChar, ih])
      | (subst h3; rw [parseStrChars.eq_def]; simp [unescChar, ih])
      | (subst h4; rw [parseStrChars.eq_def]; simp [unescChar, ih])
      | (subst h5; rw [parseStrChars.eq_def]; simp [unescChar, ih])
      | (subst h6; rw [parseStrChars.eq_def]; simp [unescChar, ih])
      | (subst h7; rw [parseStrChars.eq_def]; simp [unescChar, ih])
      | (rw [parseStrChars.eq_def]; simp [List.cons_append, h1, h2, ih])

theorem renderStrCharsShape (k : String) (rest : List Char) :
    renderStrChars k ++ rest = '"' :: ((k.data.map escChar).flatten ++ ('"' :: rest)) := by
  rw [renderStrChars]
  simp

theorem renderNullShape (rest : List Char) :
    renderJson .null ++ rest = 'n' :: ('u' :: 'l' :: 'l' :: rest) := by
  rw [renderJson]
  rfl

theorem renderTrueShape (rest : List Char) :
    renderJson (.bool true) ++ rest = 't' :: ('r' :: 'u' :: 'e' :: rest) := by
  rw [renderJson]
  rfl

theorem renderFalseShape (rest : List Char) :
    renderJson (.bool false) ++ rest = 'f' :: ('a' :: 'l' :: 's' :: 'e' :: rest) := by
  rw [renderJson]
  rfl

theorem renderStrShape (s : String) (rest : List Char) :
    renderJson (.str s) ++ rest =
      '"' :: ((s.data.map escChar).flatten ++ ('"' :: rest)) := by
  rw [renderJson]
  exact renderStrCharsShape s rest

theorem renderArrShape (xs : List Json) (rest : List Char) :
    renderJson (.arr xs) ++ rest = '[' :: (renderElems xs ++ (']' :: rest)) := by
  rw [renderJson]
  simp

theorem renderObjShape (kvs : List (String × Json)) (rest : List Char) :
    renderJson (.obj kvs) ++ rest = '{' :: (renderMembers kvs ++ ('}' :: rest)) := by
  rw [renderJson]
  simp

theorem renderElemsConsShape (x : Json) (xs : List Json) (rest : List Char) :
    renderElems (x :: xs) ++ rest = renderJson x ++ (renderSep xs ++ rest) := by
  rw [renderElems]
  simp

theorem renderSepConsShape (x : Json) (xs : List Json) (rest : List Char) :
    renderSep (x :: xs) ++ rest = ',' :: (renderJson x ++ (renderSep xs ++ rest)) := by
  rw [renderSep]
  simp

theorem renderMembersConsShape (kv : String × Json) (kvs : List (String × Json))
    (rest : List Char) :
    renderMembers (kv :: kvs) ++ rest =
      renderStrChars kv.1 ++ (':' :: (renderJson kv.2 ++ (renderMemberSep kvs ++ rest))) := by
  rw [renderMembers]
  simp

theorem renderMemberSepConsShape (kv : String × Json) (kvs : List (String × Json))
    (rest : List Char) :
    renderMemberSep (kv :: kvs) ++ rest =
      ',' :: (renderStrChars kv.1 ++ (':' :: (renderJson kv.2 ++ (renderMemberSep kvs ++ rest)))) := by
  rw [renderMemberSep]
  simp

theorem parseMember_render (k : String) (v : Json)
    (ihv : ∀ f rest, parseVal (jsize v + f) (renderJson v ++ rest) = some (v, rest))
    (f : Nat) (rest : List Char) :
    parseMember (1 + jsize v + f) (renderStrChars k ++ (':' :: (renderJson v ++ rest))) =
      some ((k, v), rest) := by
  rw [show 1 + jsize v + f = (jsize v + f) + 1 by omega]
  rw [renderStrCharsShape]
  rw [parseMember]
  rw [skipWs_cons '"' _ (by decide)]
  simp only [reduceIte, parseStrChars_render, Option.some_bind]
  rw [skipWs_cons ':' _ (by decide)]
  simp [ihv, stringMkData]

theorem parseArrRest_render (xs : List Json)
    (ih : ∀ x ∈ xs, ∀ f rest,
      parseVal (jsize x + f) (renderJson x ++ rest) = some (x, rest)) :
    ∀ f rest, parseArrRest (jsizeList xs + f) (renderSep xs ++ (']' :: rest)) =
      some (xs, rest) := by
  induction xs with
  | nil =>
    intro f rest
    rw [show jsizeList [] + f = f + 1 by simp [jsizeList]; omega]
    rw [renderSep]
    rw [parseArrRest]
    rw [List.nil_append, skipWs_cons ']' _ (by decide)]
    simp
  | cons x xs' ihl =>
    intro f rest
    rw [show jsizeList (x :: xs') + f = (jsize x + jsizeList xs' + f) + 1 by
      simp [jsizeList]; omega]
    rw [renderSepConsShape]
    rw [parseArrRest]
    rw [skipWs_cons ',' _ (by decide)]
    have h1 : parseVal (jsize x + jsizeList xs' + f)
        (renderJson x ++ (renderSep xs' ++ (']' :: rest))) =
        some (x, renderSep xs' ++ (']' :: rest)) := by
      rw [Nat.add_assoc]
      exact ih x (by simp) _ _
    have h2 : parseArrRest (jsize x + jsizeList xs' + f)
        (renderSep xs' ++ (']' :: rest)) = some (xs', rest) := by
      rw [show jsize x + jsizeList xs' + f = jsizeList xs' + (jsize x + f) by omega]
      exact ihl (fun y hy => ih y (by simp [hy])) _ _
    simp [h1, h2]

theorem parseObjRest_render (kvs : List (String × Json))
    (ih : ∀ kv ∈ kvs, ∀ f rest,
      parseVal (jsize kv.2 + f) (renderJson kv.2 ++ rest) = some (kv.2, rest)) :
    ∀ f rest, parseObjRest (jsizeObj kvs + f) (renderMemberSep kvs ++ ('}' :: rest)) =
      some (kvs, rest) := by
  induction kvs with
  | nil =>
    intro f rest
    rw [show jsizeObj [] + f = f + 1 by simp [jsizeObj]; omega]
    rw [renderMemberSep]
    rw [parseObjRest]
    rw [List.nil_append, skipWs_cons '}' _ (by decide)]
    simp
  | cons kv kvs' ihl =>
    intro f rest
    rw [show jsizeObj (kv :: kvs') + f = (1 + jsize kv.2 + jsizeObj kvs' + f) + 1 by
      simp [jsizeObj]; omega]
    rw [renderMemberSepConsShape]
    rw [parseObjRest]
    rw [skipWs_cons ',' _ (by decide)]
    have h1 : parseMember (1 + jsize kv.2 + jsizeObj kvs' + f)
        (renderStrChars kv.1 ++ (':' :: (renderJson kv.2 ++ (renderMemberSep kvs' ++ ('}' :: rest))))) =
        some ((kv.1, kv.2), renderMemberSep kvs' ++ ('}' :: rest)) := by
      rw [show 1 + jsize kv.2 + jsizeObj kvs' + f = 1 + jsize kv.2 + (jsizeObj kvs' + f) by
        omega]
      exact parseMember_render kv.1 kv.2 (ih kv (by simp)) _ _
    have h2 : parseObjRest (1 + jsize kv.2 + jsizeObj kvs' + f)
        (renderMemberSep kvs' ++ ('}' :: rest)) = some (kvs', rest) := by
      rw [show 1 + jsize kv.2 + jsizeObj kvs' + f = jsizeObj kvs' + (1 + jsize kv.2 + f) by
        omega]
      exact ihl (fun p hp => ih p (by simp [hp])) _ _
    simp [h1, h2]

theorem parseVal_render : ∀ (n : Nat) (v : Json), jsize v ≤ n → numFree v = true →
    ∀ (f : Nat) (rest : List Char),
      parseVal (jsize v + f) (renderJson v ++ rest) = some (v, rest) := by
  intro n
  induction n with
  | zero =>
    intro v hv
    have := jsize_pos v
    omega
  | succ n ihn =>
    intro v hv hnf f rest
    cases v with
    | null =>
      rw [show jsize .null + f = f + 1 by simp [jsize]; omega]
      rw [renderNullShape]
      rw [parseVal]
      rw [skipWs_cons 'n' _ (by decide)]
      simp [listPre]
    | bool b =>
      cases b with
      | false =>
        rw [show jsize (.bool false) + f = f + 1 by simp [jsize]; omega]
        rw [renderFalseShape]
        rw [parseVal]
        rw [skipWs_cons 'f' _ (by decide)]
        simp [listPre]
      | true =>
        rw [show jsize (.bool true) + f = f + 1 by simp [jsize]; omega]
        rw [renderTrueShape]
        rw [parseVal]
        rw [skipWs_cons 't' _ (by decide)]
        simp [listPre]
    | num m => simp [numFree] at hnf
    | str s =>
      rw [show jsize (.str s) + f = f + 1 by simp [jsize]; omega]
      rw [renderStrShape]
      rw [parseVal]
      rw [skipWs_cons '"' _ (by decide)]
      simp [parseStrChars_render, stringMkData]
    | arr xs =>
      rw [show jsize (.arr xs) + f = (jsizeList xs + f) + 1 by simp [jsize]; omega]
      rw [renderArrShape]
      rw [parseVal]
      rw [skipWs_cons '[' _ (by decide)]
      simp only [reduceIte]
      have hnfl : numFreeList xs = true := by rw [numFree] at hnf; exact hnf
      have hmem : ∀ x ∈ xs, ∀ f' rest',
          parseVal (jsize x + f') (renderJson x ++ rest') = some (x, rest') := by
        intro x hx f' rest'
        have hlt := jsize_lt_of_mem_list hx
        have hxn : jsize x ≤ n := by simp [jsize] at hv; omega
        exact ihn x hxn (numFree_of_mem_list hx hnfl) f' rest'
      cases xs with
      | nil =>
        rw [renderElems]
        rw [show jsizeList ([] : List Json) + f = f + 1 by simp [jsizeList]; omega]
        rw [parseArrStart]
        rw [List.nil_append, skipWs_cons ']' _ (by decide)]
        simp
      | cons x xs' =>
        rw [renderElemsConsShape]
        rw [show jsizeList (x :: xs') + f = (jsize x + jsizeList xs' + f) + 1 by
          simp [jsizeList]; omega]
        rw [parseArrStart]
        obtain ⟨c0, t, hx0, hws, hc1, _, _⟩ :=
          renderJson_head x (numFree_of_mem_list (by simp) hnfl)
        rw [hx0, List.cons_append, skipWs_cons _ _ hws]
        simp only [if_neg hc1]
        rw [← List.cons_append, ← hx0]
        have h1 : parseVal (jsize x + jsizeList xs' + f)
            (renderJson x ++ (renderSep xs' ++ (']' :: rest))) =
            some (x, renderSep xs' ++ (']' :: rest)) := by
          rw [Nat.add_assoc]
          exact hmem x (by simp) _ _
        have h2 : parseArrRest (jsize x + jsizeList xs' + f)
            (renderSep xs' ++ (']' :: rest)) = some (xs', rest) := by
          rw [show jsize x + jsizeList xs' + f = jsizeList xs' + (jsize x + f) by omega]
          exact parseArrRest_render xs' (fun y hy => hmem y (by simp [hy])) _ _
        simp [h1, h2]
    | obj kvs =>
      rw [show jsize (.obj kvs) + f = (jsizeObj kvs + f) + 1 by simp [jsize]; omega]
      rw [renderObjShape]
      rw [parseVal]
      rw [skipWs_cons '{' _ (by decide)]
      simp only [reduceIte]
      have hnfo : numFreeObj kvs = true := by rw [numFree] at hnf; exact hnf
      have hmem : ∀ kv ∈ kvs, ∀ f' rest',
          parseVal (jsize kv.2 + f') (renderJson kv.2 ++ rest') = some (kv.2, rest') := by
        intro kv hkv f' rest'
        have hlt := jsize_lt_of_mem_obj hkv
        have hxn : jsize kv.2 ≤ n := by simp [jsize] at hv; omega
        exact ihn kv.2 hxn (numFree_of_mem_obj hkv hnfo) f' rest'
      cases kvs with
      | nil =>
        rw [renderMembers]
        rw [show jsizeObj ([] : List (String × Json)) + f = f + 1 by simp [jsizeObj]; omega]
        rw [parseObjStart]
        rw [List.nil_append, skipWs_cons '}' _ (by decide)]
        simp
      | cons kv kvs' =>
        rw [renderMembersConsShape]
        rw [show jsizeObj (kv :: kvs') + f = (1 + jsize kv.2 + jsizeObj kvs' + f) + 1 by
          simp [jsizeObj]; omega]
        rw [parseObjStart]
        rw [renderStrCharsShape]
        rw [skipWs_cons '"' _ (by decide)]
        simp only [if_neg (by decide : ¬('"' : Char) = '}')]
        rw [← renderStrCharsShape]
        have h1 : parseMember (1 + jsize kv.2 + jsizeObj kvs' + f)
            (renderStrChars kv.1 ++ (':' :: (renderJson kv.2 ++ (renderMemberSep kvs' ++ ('}' :: rest))))) =
            some ((kv.1, kv.2), renderMemberSep kvs' ++ ('}' :: rest)) := by
          rw [show 1 + jsize kv.2 + jsizeObj kvs' + f = 1 + jsize kv.2 + (jsizeObj kvs' + f) by
            omega]
          exact parseMember_render kv.1 kv.2 (hmem kv (by simp)) _ _
        have h2 : parseObjRest (1 + jsize kv.2 + jsizeObj kvs' + f)
            (renderMemberSep kvs' ++ ('}' :: rest)) = some (kvs', rest) := by
          rw [show 1 + jsize kv.2 + jsizeObj kvs' + f = jsizeObj kvs' + (1 + jsize kv.2 + f) by
            omega]
          exact parseObjRest_render kvs' (fun p hp => hmem p (by simp [hp])) _ _
        simp [h1, h2]

theorem jsizeList_le_renderSep (xs : List Json)
    (ih : ∀ x ∈ xs, jsize x ≤ 2 * (renderJson x).length + 1) :
    jsizeList xs ≤ 2 * (renderSep xs).length + 1 := by
  induction xs with
  | nil => simp [jsizeList, renderSep]
  | cons x xs' ihl =>
    have h1 := ih x (by simp)
    have h2 := ihl (fun y hy => ih y (by simp [hy]))
    simp only [jsizeList, renderSep, List.length_cons, List.length_append]
    omega

theorem jsizeObj_le_renderMemberSep (kvs : List (String × Json))
    (ih : ∀ kv ∈ kvs, jsize kv.2 ≤ 2 * (renderJson kv.2).length + 1) :
    jsizeObj kvs ≤ 2 * (renderMemberSep kvs).length + 1 := by
  induction kvs with
  | nil => simp [jsizeObj, renderMemberSep]
  | cons kv kvs' ihl =>
    have h1 := ih kv (by simp)
    have h2 := ihl (fun p hp => ih p (by simp [hp]))
    simp only [jsizeObj, renderMemberSep, List.length_cons, List.length_append]
    omega

theorem jsize_le_render : ∀ (n : Nat) (v : Json), jsize v ≤ n →
    jsize v ≤ 2 * (renderJson v).length + 1 := by
  intro n
  induction n with
  | zero =>
    intro v hv
    have := jsize_pos v
    omega
  | succ n ihn =>
    intro v hv
    cases v with
    | null => simp [jsize]
    | bool b => simp [jsize]
    | num m => simp [jsize]
    | str s => simp [jsize]
    | arr xs =>
      have hmem : ∀ x ∈ xs, jsize x ≤ 2 * (renderJson x).length + 1 := by
        intro x hx
        have hlt := jsize_lt_of_mem_list hx
        exact ihn x (by simp [jsize] at hv; omega)
      have hlist := jsizeList_le_renderSep xs hmem
      cases xs with
      | nil => simp [jsize, jsizeList, renderJson, renderElems]
      | cons x xs' =>
        have h1 := hmem x (by simp)
        have h2 := jsizeList_le_renderSep xs' (fun y hy => hmem y (by simp [hy]))
        simp only [jsize, jsizeList, renderJson, renderElems, List.length_cons,
          List.length_append]
        omega
    | obj kvs =>
      have hmem : ∀ kv ∈ kvs, jsize kv.2 ≤ 2 * (renderJson kv.2).length + 1 := by
        intro kv hkv
        have hlt := jsize_lt_of_mem_obj hkv
        exact ihn kv.2 (by simp [jsize] at hv; omega)
      cases kvs with
      | nil => simp [jsize, jsizeObj, renderJson, renderMembers]
      | cons kv kvs' =>
        have h1 := hmem kv (by simp)
        have h2 := jsizeObj_le_renderMemberSep kvs' (fun p hp => hmem p (by simp [hp]))
        simp only [jsize, jsizeObj, renderJson, renderMembers, List.length_cons,
          List.length_append]
        omega

/-- The strict parser inverts the renderer on number-free values. -/
theorem jsonParse_render (v : Json) (hnf : numFree v = true) :
    jsonParse (String.mk (renderJson v)) = some v := by
  have hle : jsize v ≤ 2 * (renderJson v).length + 1 :=
    jsize_le_render (jsize v) v le_rfl
  obtain ⟨f, hf⟩ : ∃ f, 2 * (renderJson v).length + 2 = jsize v + f :=
    ⟨2 * (renderJson v).length + 2 - jsize v, by omega⟩
  have hp := parseVal_render (jsize v) v le_rfl hnf f []
  rw [List.append_nil] at hp
  unfold jsonParse
  have hlen : (String.mk (renderJson v)).length = (renderJson v).length := rfl
  have hdata : (String.mk (renderJson v)).data = renderJson v := rfl
  rw [hlen, hdata, hf, hp]
  simp [skipWs]

/-! ## Helper lemmas: the JavaScript trim model -/

theorem dropWhile_dropWhile (p : Char → Bool) (l : List Char) :
    (l.dropWhile p).dropWhile p = l.dropWhile p := by
  induction l with
  | nil => rfl
  | cons c cs ih => by_cases h : p c <;> simp [List.dropWhile_cons, h, ih]

theorem dropWhile_head_false (p : Char → Bool) (l : List Char) (c : Char)
    (h : (l.dropWhile p).head? = some c) : p c = false := by
  induction l with
  | nil => simp [List.dropWhile] at h
  | cons a as ih =>
    rw [List.dropWhile_cons] at h
    split at h
    · exact ih h
    · simp only [List.head?_cons, Option.some.injEq] at h
      subst h
      simp_all

theorem jsTrim_eq_self (s : String)
    (h1 : ∀ c, s.data.head? = some c → c.isWhitespace = false)
    (h2 : ∀ c, s.data.getLast? = some c → c.isWhitespace = false) :
    s.jsTrim = s := by
  unfold String.jsTrim
  cases hd : s.data with
  | nil =>
    cases s with
    | mk d => simp_all
  | cons c rest =>
    have hc : c.isWhitespace = false := h1 c (by rw [hd]; rfl)
    rw [List.dropWhile_cons]
    simp only [hc, Bool.false_eq_true, if_false]
    cases hr : (c :: rest).reverse with
    | nil => simp at hr
    | cons d rrest =>
      have hdlast : (c :: rest).getLast? = some d := by
        rw [← List.head?_reverse, hr]
        rfl
      have hdws : d.isWhitespace = false := h2 d (by rw [hd]; exact hdlast)
      rw [List.dropWhile_cons]
      simp only [hdws, Bool.false_eq_true, if_false]
      rw [← hr, List.reverse_reverse, ← hd]

theorem jsTrim_head_ws (s : String) (c : Char) (h : s.jsTrim.data.head? = some c) :
    c.isWhitespace = false := by
  have h' : (((s.data.dropWhile Char.isWhitespace).reverse.dropWhile
      Char.isWhitespace).reverse).head? = some c := h
  have hsplit : s.data.dropWhile Char.isWhitespace =
      ((s.data.dropWhile Char.isWhitespace).reverse.dropWhile Char.isWhitespace).reverse
        ++ ((s.data.dropWhile Char.isWhitespace).reverse.takeWhile
          Char.isWhitespace).reverse := by
    rw [← List.reverse_append]
    rw [List.takeWhile_append_dropWhile]
    rw [List.reverse_reverse]
  rcases hbc : ((s.data.dropWhile Char.isWhitespace).reverse.dropWhile
      Char.isWhitespace).reverse with _ | ⟨x, xs⟩
  · rw [hbc] at h'
    simp at h'
  · rw [hbc] at h'
    simp only [List.head?_cons, Option.some.injEq] at h'
    have hahead : (s.data.dropWhile Char.isWhitespace).head? = some x := by
      rw [hsplit, hbc]
      rfl
    exact h' ▸ dropWhile_head_false _ _ _ hahead

theorem jsTrim_getLast_ws (s : String) (c : Char)
    (h : s.jsTrim.data.getLast? = some c) : c.isWhitespace = false := by
  rw [← List.head?_reverse] at h
  have h' : ((s.data.dropWhile Char.isWhitespace).reverse.dropWhile
      Char.isWhitespace).head? = some c := by
    rw [← List.reverse_reverse ((s.data.dropWhile Char.isWhitespace).reverse.dropWhile
      Char.isWhitespace)]
    exact h
  exact dropWhile_head_false _ _ _ h'

theorem jsTrim_idem (s : String) : s.jsTrim.jsTrim = s.jsTrim :=
  jsTrim_eq_self _ (jsTrim_head_ws s) (jsTrim_getLast_ws s)

/-! ## Helper lemmas: serialized plans win as the first parse candidate -/

theorem serializePlan_data (p : AssistantPlan) :
    (serializePlan p).data =
      '{' :: (renderMembers (planToJsonFields p) ++ ['}']) := by
  rw [serializePlan, planToJson, renderJson]
  rfl

theorem serializePlan_jsTrim (p : AssistantPlan) :
    (serializePlan p).jsTrim = serializePlan p := by
  apply jsTrim_eq_self
  · intro c h
    rw [serializePlan_data] at h
    simp only [List.head?_cons, Option.some.injEq] at h
    subst h
    decide
  · intro c h
    rw [serializePlan_data] at h
    rw [show ('{' :: (renderMembers (planToJsonFields p) ++ ['}'])) =
      ('{' :: renderMembers (planToJsonFields p)) ++ ['}'] by simp] at h
    rw [List.getLast?_concat] at h
    simp only [Option.some.injEq] at h
    subst h
    decide

theorem serializePlan_ne_empty (p : AssistantPlan) : serializePlan p ≠ "" := by
  intro h
  have := congrArg String.data h
  rw [serializePlan_data] at this
  simp at this

theorem numFreeList_map_str (l : List String) :
    numFreeList (l.map Json.str) = true := by
  induction l with
  | nil => rfl
  | cons s rest ih => simp [numFreeList, numFree, ih]

theorem numFree_stepToJson (st : PlanStep) : numFree (stepToJson st) = true := by
  cases st with
  | mk t d r =>
    cases d <;> cases r <;> simp [stepToJson, numFree, numFreeObj]

theorem numFree_commandToJson (c : ShellCommandRequest) :
    numFree (commandToJson c) = true := by
  cases c with
  | mk cmd d => cases d <;> simp [commandToJson, numFree, numFreeObj]

theorem numFree_fileActionToJson (a : FileAction) :
    numFree (fileActionToJson a) = true := by
  cases a with
  | mk t pa co de =>
    cases co <;> cases de <;> simp [fileActionToJson, numFree, numFreeObj]

theorem numFreeList_map_of (f : α → Json) (l : List α)
    (h : ∀ x, numFree (f x) = true) : numFreeList (l.map f) = true := by
  induction l with
  | nil => rfl
  | cons x rest ih => simp [numFreeList, h x, ih]

theorem planToJson_numFree (p : AssistantPlan) : numFree (planToJson p) = true := by
  simp [planToJson, numFree, numFreeObj, numFreeList_map_str,
    numFreeList_map_of stepToJson p.steps numFree_stepToJson,
    numFreeList_map_of commandToJson p.commandRequests numFree_commandToJson,
    numFreeList_map_of fileActionToJson p.fileActions numFree_fileActionToJson]

theorem tryParseStrict_serializePlan (p : AssistantPlan) :
    ResponseParser.tryParseStrict (serializePlan p) = some (planToJson p) := by
  unfold ResponseParser.tryParseStrict serializePlan
  rw [jsonParse_render (planToJson p) (planToJson_numFree p)]
  simp [ResponseParser.ensureObject, planToJson]

theorem pushCandidate_prefix (atts : List String) (c : Option String) :
    ∃ t, ResponseParser.pushCandidate atts c = atts ++ t := by
  cases c with
  | none => exact ⟨[], by simp [ResponseParser.pushCandidate]⟩
  | some s =>
    simp only [ResponseParser.pushCandidate]
    split_ifs with h
    · exact ⟨[s.jsTrim], rfl⟩
    · exact ⟨[], by simp⟩

theorem pushCandidate_head (atts : List String) (c : Option String) (r : String)
    (h : ∃ t, atts = r :: t) :
    ∃ t, ResponseParser.pushCandidate atts c = r :: t := by
  obtain ⟨t, ht⟩ := h
  obtain ⟨t2, h2⟩ := pushCandidate_prefix atts c
  exact ⟨t ++ t2, by rw [h2, ht]; rfl⟩

theorem buildParseAttempts_head (raw : String) (ht : raw.jsTrim = raw)
    (hne : raw ≠ "") : ∃ tail, ResponseParser.buildParseAttempts raw = raw :: tail := by
  have h0 : ResponseParser.pushCandidate [] (some raw) = [raw] := by
    simp only [ResponseParser.pushCandidate]
    rw [ht]
    simp [hne]
  have hbase : ∃ t, ResponseParser.pushCandidate [] (some raw) = raw :: t :=
    ⟨[], h0⟩
  simp only [ResponseParser.buildParseAttempts]
  rw [ht]
  by_cases hc : ResponseParser.stripReasoningTags raw ≠ raw
  · simp only [if_pos hc]
    exact pushCandidate_head _ _ _ (pushCandidate_head _ _ _ (pushCandidate_head _ _ _
      (pushCandidate_head _ _ _ (pushCandidate_head _ _ _ hbase))))
  · simp only [if_neg hc]
    exact pushCandidate_head _ _ _ (pushCandidate_head _ _ _ hbase)

theorem safeParse_of_strict_head (jsonc : Option (String → Option Json)) (raw : String)
    (o : Json) (ht : raw.jsTrim = raw) (hne : raw ≠ "")
    (hs : ResponseParser.tryParseStrict raw = some o) :
    ResponseParser.safeParse jsonc raw = .ok o := by
  obtain ⟨tail, hb⟩ := buildParseAttempts_head raw ht hne
  unfold ResponseParser.safeParse
  rw [hb]
  simp [List.findSome?_cons, hs]

theorem planToJson_getField_summary (p : AssistantPlan) :
    (planToJson p).getField "summary" = some (.str p.summary) := by
  simp [planToJson, planToJsonFields, Json.getField, List.find?]

theorem planToJson_getField_message (p : AssistantPlan) :
    (planToJson p).getField "message" = some (.str p.message) := by
  simp [planToJson, planToJsonFields, Json.getField, List.find?]

theorem planToJson_getField_steps (p : AssistantPlan) :
    (planToJson p).getField "steps" = some (.arr (p.steps.map stepToJson)) := by
  simp [planToJson, planToJsonFields, Json.getField, List.find?]

theorem planToJson_getField_commands (p : AssistantPlan) :
    (planToJson p).getField "commandRequests" =
      some (.arr (p.commandRequests.map commandToJson)) := by
  simp [planToJson, planToJsonFields, Json.getField, List.find?]

theorem planToJson_getField_fileActions (p : AssistantPlan) :
    (planToJson p).getField "fileActions" =
      some (.arr (p.fileActions.map fileActionToJson)) := by
  simp [planToJson, planToJsonFields, Json.getField, List.find?]

theorem planToJson_coalesce_liveLog (p : AssistantPlan) :
    (planToJson p).fieldCoalesce ["liveLog", "workLog", "log"] =
      some (.arr (p.liveLog.map Json.str)) := by
  simp [Json.fieldCoalesce, planToJson, planToJsonFields, Json.getField, List.find?]

theorem planToJson_coalesce_qaFindings (p : AssistantPlan) :
    (planToJson p).fieldCoalesce ["qaFindings", "qualityFindings"] =
      some (.arr (p.qaFindings.map Json.str)) := by
  simp [Json.fieldCoalesce, planToJson, planToJsonFields, Json.getField, List.find?]

theorem planToJson_coalesce_testResults (p : AssistantPlan) :
    (planToJson p).fieldCoalesce ["testResults", "tests", "testLog", "testOutcomes"] =
      some (.arr (p.testResults.map Json.str)) := by
  simp [Json.fieldCoalesce, planToJson, planToJsonFields, Json.getField, List.find?]

theorem filterMap_map_eq {β : Type} (f : β → Json) (g : Json → Option β) (l : List β)
    (h : ∀ x ∈ l, g (f x) = some x) : (l.map f).filterMap g = l := by
  induction l with
  | nil => rfl
  | cons x rest ih =>
    simp only [List.map_cons, List.filterMap_cons, h x (by simp)]
    rw [ih (fun y hy => h y (by simp [hy]))]

theorem stepOfEntry_stepToJson (st : PlanStep) (h : wellFormedStep st) :
    ResponseParser.stepOfEntry (stepToJson st) = some st := by
  obtain ⟨⟨ht1, ht2⟩, hd, hr⟩ := h
  cases st with
  | mk title detail result =>
    simp only at ht1 ht2 hd hr
    cases detail with
    | none =>
      cases result with
      | none =>
        simp [stepToJson, ResponseParser.stepOfEntry, Json.getField, List.find?,
          ht1, ht2]
      | some r =>
        obtain ⟨hr1, hr2⟩ := hr r rfl
        simp [stepToJson, ResponseParser.stepOfEntry, Json.getField, List.find?,
          ht1, ht2, hr1, hr2]
    | some d =>
      obtain ⟨hd1, hd2⟩ := hd d rfl
      cases result with
      | none =>
        simp [stepToJson, ResponseParser.stepOfEntry, Json.getField, List.find?,
          ht1, ht2, hd1, hd2]
      | some r =>
        obtain ⟨hr1, hr2⟩ := hr r rfl
        simp [stepToJson, ResponseParser.stepOfEntry, Json.getField, List.find?,
          ht1, ht2, hd1, hd2, hr1, hr2]

theorem stringArrayEntry_str (s : String) (h : trimmedNonEmpty s) :
    ResponseParser.stringArrayEntry (.str s) = some s := by
  simp [ResponseParser.stringArrayEntry, h.1, h.2]

theorem commandOfEntry_commandToJson (c : ShellCommandRequest)
    (h : wellFormedCommand c) :
    ResponseParser.commandOfEntry (commandToJson c) = some c := by
  obtain ⟨h1, h2⟩ := h
  cases c with
  | mk cmd d =>
    simp only at h1 h2
    cases d <;>
      simp [commandToJson, ResponseParser.commandOfEntry, Json.getField, List.find?,
        h1, h2]

theorem normalizeFilePath_output_trim (v : String) :
    (ResponseParser.normalizeFilePath v).jsTrim = ResponseParser.normalizeFilePath v := by
  simp only [ResponseParser.normalizeFilePath]
  split_ifs with h
  · decide
  · exact jsTrim_idem _

theorem normalizeFileActionType_typeStr (t : FileActionType) :
    ResponseParser.normalizeFileActionType (some (fileActionTypeStr t)) = some t := by
  cases t <;> decide

theorem jsTrim_create : ("create" : String).jsTrim = "create" := by decide

theorem jsTrim_edit : ("edit" : String).jsTrim = "edit" := by decide

theorem jsTrim_delete : ("delete" : String).jsTrim = "delete" := by decide

theorem normActionType_create :
    ResponseParser.normalizeFileActionType (some "create") = some .create := by decide

theorem normActionType_edit :
    ResponseParser.normalizeFileActionType (some "edit") = some .edit := by decide

theorem normActionType_delete :
    ResponseParser.normalizeFileActionType (some "delete") = some .delete := by decide

theorem fileActionOfEntry_fileActionToJson (a : FileAction) (h : wellFormedAction a) :
    ResponseParser.fileActionOfEntry (fileActionToJson a) = some a := by
  obtain ⟨hp1, hp2, hdesc⟩ := h
  cases a with
  | mk t pa co de =>
    simp only at hp1 hp2 hdesc
    have hptrim : pa.jsTrim = pa := by
      calc pa.jsTrim = (ResponseParser.normalizeFilePath pa).jsTrim := by rw [hp2]
        _ = ResponseParser.normalizeFilePath pa := normalizeFilePath_output_trim pa
        _ = pa := hp2
    cases de with
    | none =>
      cases t <;> cases co <;>
        simp [fileActionToJson, ResponseParser.fileActionOfEntry,
          ResponseParser.getFirstString, ResponseParser.extractFileContent,
          ResponseParser.contentFrom, fileActionTypeStr, Json.getField, List.find?,
          hptrim, hp1, hp2, jsTrim_create, jsTrim_edit, jsTrim_delete,
          normActionType_create, normActionType_edit, normActionType_delete]
    | some d =>
      obtain ⟨hd1, hd2⟩ := hdesc d rfl
      cases t <;> cases co <;>
        simp [fileActionToJson, ResponseParser.fileActionOfEntry,
          ResponseParser.getFirstString, ResponseParser.extractFileContent,
          ResponseParser.contentFrom, fileActionTypeStr, Json.getField, List.find?,
          hptrim, hp1, hp2, hd1, hd2, jsTrim_create, jsTrim_edit, jsTrim_delete,
          normActionType_create, normActionType_edit, normActionType_delete]

theorem planOfObject_planToJson (p : AssistantPlan) (hp : wellFormedPlan p) :
    ResponseParser.planOfObject (planToJson p) = .ok p := by
  obtain ⟨h1, h2, h3, h4, h5, h6, h7, h8⟩ := hp
  have hsum : ResponseParser.expectString ((planToJson p).getField "summary")
      "summary" false = .ok p.summary := by
    rw [planToJson_getField_summary]
    simp [ResponseParser.expectString, h1]
  have hmsg : ResponseParser.expectString ((planToJson p).getField "message")
      "message" true = .ok p.message := by
    rw [planToJson_getField_message]
    by_cases hm : p.message.jsTrim = ""
    · have hmm := h2 hm
      simp [ResponseParser.expectString, hm, hmm]
    · simp [ResponseParser.expectString, hm]
  have hsteps : ResponseParser.parseSteps ((planToJson p).getField "steps") = p.steps := by
    rw [planToJson_getField_steps]
    simp only [ResponseParser.parseSteps]
    exact filterMap_map_eq _ _ _ (fun st hst => stepOfEntry_stepToJson st (h3 st hst))
  have hlive : ResponseParser.parseStringArray
      ((planToJson p).fieldCoalesce ["liveLog", "workLog", "log"]) = p.liveLog := by
    rw [planToJson_coalesce_liveLog]
    simp only [ResponseParser.parseStringArray]
    exact filterMap_map_eq _ _ _ (fun s hs => stringArrayEntry_str s (h4 s hs))
  have hqa : ResponseParser.parseStringArray
      ((planToJson p).fieldCoalesce ["qaFindings", "qualityFindings"]) = p.qaFindings := by
    rw [planToJson_coalesce_qaFindings]
    simp only [ResponseParser.parseStringArray]
    exact filterMap_map_eq _ _ _ (fun s hs => stringArrayEntry_str s (h5 s hs))
  have htest : ResponseParser.parseStringArray
      ((planToJson p).fieldCoalesce ["testResults", "tests", "testLog", "testOutcomes"]) =
      p.testResults := by
    rw [planToJson_coalesce_testResults]
    simp only [ResponseParser.parseStringArray]
    exact filterMap_map_eq _ _ _ (fun s hs => stringArrayEntry_str s (h6 s hs))
  have hcmds : ResponseParser.parseCommands ((planToJson p).getField "commandRequests") =
      p.commandRequests := by
    rw [planToJson_getField_commands]
    simp only [ResponseParser.parseCommands]
    exact filterMap_map_eq _ _ _ (fun c hc => commandOfEntry_commandToJson c (h7 c hc))
  have hfas : ResponseParser.parseFileActions ((planToJson p).getField "fileActions") =
      p.fileActions := by
    rw [planToJson_getField_fileActions]
    simp only [ResponseParser.parseFileActions]
    exact filterMap_map_eq _ _ _
      (fun a ha => fileActionOfEntry_fileActionToJson a (h8 a ha))
  simp only [ResponseParser.planOfObject, hsum, hmsg, hsteps, hlive, hqa, htest, hcmds,
    hfas]
  rfl

/-! ## Claim C3 -/

/-- C3: recovery is idempotent on well-formed plans — for every plan
`p` satisfying the schema invariants, serializing `p` as a plain JSON
object (no fences, no comments) and running `ResponseParser.parse` on
that string returns a plan equal to `p`, field for field, whatever
lenient JSONC parser is installed. -/
theorem recover_serialize_roundtrip (p : AssistantPlan)
    (jsonc : Option (String → Option Json)) (hp : wellFormedPlan p) :
    ResponseParser.parse jsonc (serializePlan p) = .ok p := by
  have hsp := safeParse_of_strict_head jsonc (serializePlan p) (planToJson p)
    (serializePlan_jsTrim p) (serializePlan_ne_empty p) (tryParseStrict_serializePlan p)
  simp only [ResponseParser.parse, hsp]
  exact planOfObject_planToJson p hp

/-- Witness for C3: the round trip evaluated at a concrete plan. -/
theorem recover_serialize_roundtrip_witness :
    wellFormedPlan samplePlan ∧
      ResponseParser.parse none (serializePlan samplePlan) = .ok samplePlan :=
  ⟨by decide, recover_serialize_roundtrip samplePlan none (by decide)⟩

/-! ## Helper lemmas: `path.relative` and workspace containment -/

theorem commonPrefixLen_le_left :
    ∀ a b : List String, commonPrefixLen a b ≤ a.length := by
  intro a
  induction a with
  | nil => intro b; cases b <;> simp [commonPrefixLen]
  | cons x xs ih =>
    intro b
    cases b with
    | nil => simp [commonPrefixLen]
    | cons y ys =>
      rw [commonPrefixLen]
      by_cases hxy : x = y
      · rw [if_pos hxy]
        have := ih ys
        simp only [List.length_cons]
        omega
      · rw [if_neg hxy]
        simp

theorem commonPrefixLen_eq_length_prefix :
    ∀ a b : List String, commonPrefixLen a b = a.length → ∃ t, a ++ t = b := by
  intro a
  induction a with
  | nil => intro b _; exact ⟨b, rfl⟩
  | cons x xs ih =>
    intro b h
    cases b with
    | nil =>
      simp [commonPrefixLen] at h
    | cons y ys =>
      rw [commonPrefixLen] at h
      by_cases hxy : x = y
      · rw [if_pos hxy] at h
        simp only [List.length_cons] at h
        obtain ⟨t, ht⟩ := ih ys (by omega)
        exact ⟨t, by rw [hxy, List.cons_append, ht]⟩
      · rw [if_neg hxy] at h
        simp at h

theorem joinSegsChars_dotdot (rest : List String) :
    startsDotDot (joinSegsChars (".." :: rest)) = true := by
  cases rest <;> rfl

theorem startsDotDot_not_empty (l : List Char) (h : startsDotDot l = true) :
    l.isEmpty = false := by
  cases l with
  | nil => exact absurd h (by decide)
  | cons a t => rfl

/-- Soundness of the containment test: when `isInsideWorkspace` accepts,
the resolved segments of the root really are a prefix of the resolved
segments of the target. -/
theorem isInsideWorkspace_sound (cwd target root : String)
    (h : FileActionExecutor.isInsideWorkspace cwd target root = true) :
    ∃ t, resolvedSegs cwd root ++ t = resolvedSegs cwd target := by
  have hle := commonPrefixLen_le_left (resolvedSegs cwd root) (resolvedSegs cwd target)
  by_cases hk :
      commonPrefixLen (resolvedSegs cwd root) (resolvedSegs cwd target)
        = (resolvedSegs cwd root).length
  · exact commonPrefixLen_eq_length_prefix _ _ hk
  · exfalso
    obtain ⟨m, hm⟩ : ∃ m,
        (resolvedSegs cwd root).length
          - commonPrefixLen (resolvedSegs cwd root) (resolvedSegs cwd target) = m + 1 :=
      ⟨(resolvedSegs cwd root).length
          - commonPrefixLen (resolvedSegs cwd root) (resolvedSegs cwd target) - 1, by omega⟩
    have hrel : relSegs (resolvedSegs cwd root) (resolvedSegs cwd target)
        = ".." :: (List.replicate m ".."
            ++ (resolvedSegs cwd target).drop
                (commonPrefixLen (resolvedSegs cwd root) (resolvedSegs cwd target))) := by
      rw [relSegs, hm, List.replicate_succ, List.cons_append]
    have hdd := joinSegsChars_dotdot (List.replicate m ".."
        ++ (resolvedSegs cwd target).drop
            (commonPrefixLen (resolvedSegs cwd root) (resolvedSegs cwd target)))
    have hne := startsDotDot_not_empty _ hdd
    rw [FileActionExecutor.isInsideWorkspace, pathRelativeChars, hrel] at h
    rw [hdd, hne] at h
    simp at h

theorem mem_getOrderedWorkspaceFolders
    {folders : List FileActionExecutor.WorkspaceFolder}
    {active : Option FileActionExecutor.WorkspaceFolder}
    {f : FileActionExecutor.WorkspaceFolder}
    (h : f ∈ FileActionExecutor.getOrderedWorkspaceFolders folders active) :
    f ∈ folders := by
  cases active with
  | none => exact h
  | some a =>
    rw [FileActionExecutor.getOrderedWorkspaceFolders] at h
    by_cases hc : folders.contains a = true
    · rw [if_pos hc] at h
      rcases List.mem_cons.mp h with h1 | h2
      · subst h1; exact List.mem_of_elem_eq_true hc
      · exact List.mem_of_mem_filter h2
    · rw [if_neg hc] at h; exact h

/-- Every location returned by `resolveUri` lies inside some open
workspace root, in the segment-prefix sense. -/
theorem resolveUri_inside (cwd : String)
    (folders : List FileActionExecutor.WorkspaceFolder)
    (active : Option FileActionExecutor.WorkspaceFolder) (filePath p : String)
    (hp : FileActionExecutor.resolveUri cwd folders active filePath = some p) :
    ∃ f ∈ folders, ∃ t, resolvedSegs cwd f.fsPath ++ t = resolvedSegs cwd p := by
  by_cases hf : folders = []
  · rw [FileActionExecutor.resolveUri, if_pos hf] at hp; cases hp
  simp only [FileActionExecutor.resolveUri] at hp
  rw [if_neg hf] at hp
  split at hp
  · -- absolute path
    split at hp
    · -- accepted as a candidate under some ordered folder
      rename_i f hfind
      cases hp
      have hq := List.find?_some hfind
      exact ⟨f, mem_getOrderedWorkspaceFolders (List.mem_of_find?_eq_some hfind),
        isInsideWorkspace_sound _ _ _ hq⟩
    · -- workspace-name fallback
      split at hp
      · rename_i mw rest
        split at hp
        · split at hp
          · rename_i m hfind2
            split at hp
            · rename_i hins
              cases hp
              exact ⟨m, List.mem_of_find?_eq_some hfind2,
                isInsideWorkspace_sound _ _ _ hins⟩
            · cases hp
          · cases hp
        · cases hp
      · cases hp
  · -- relative path
    split at hp
    · rename_i tf trimmed
      split at hp
      · rename_i m hfind2
        split at hp
        · cases hp
        · obtain ⟨f, hfind3, hfp⟩ := Option.map_eq_some'.mp hp
          subst hfp
          have hmemp := List.mem_of_find?_eq_some hfind3
          have hmem : f ∈ folders := by
            rcases List.mem_cons.mp hmemp with h1 | h2
            · subst h1; exact List.mem_of_find?_eq_some hfind2
            · exact mem_getOrderedWorkspaceFolders (List.mem_of_mem_filter h2)
          have hq := List.find?_some hfind3
          exact ⟨f, hmem, isInsideWorkspace_sound _ _ _ hq⟩
      · obtain ⟨f, hfind3, hfp⟩ := Option.map_eq_some'.mp hp
        subst hfp
        have hq := List.find?_some hfind3
        exact ⟨f, mem_getOrderedWorkspaceFolders (List.mem_of_find?_eq_some hfind3),
          isInsideWorkspace_sound _ _ _ hq⟩
    · obtain ⟨f, hfind3, hfp⟩ := Option.map_eq_some'.mp hp
      subst hfp
      have hq := List.find?_some hfind3
      exact ⟨f, mem_getOrderedWorkspaceFolders (List.mem_of_find?_eq_some hfind3),
        isInsideWorkspace_sound _ _ _ hq⟩

/-! ## Claim C1 -/

/-- C1: `resolveUri` never returns a location outside every open
workspace root — every returned path has some open root's resolved
segments as a prefix of its own — and, concretely, the escape attempts
`../../etc/passwd` and `/etc/passwd` against the root `/home/user/proj`
yield no result, as does `/home/user/app2/x` against the root
`/home/user/app`, whose path it shares a string prefix with. -/
theorem resolveUri_containment :
    (∀ cwd folders active filePath p,
        FileActionExecutor.resolveUri cwd folders active filePath = some p →
        ∃ f ∈ folders, ∃ t, resolvedSegs cwd f.fsPath ++ t = resolvedSegs cwd p)
    ∧ FileActionExecutor.resolveUri "/home/user"
        [⟨"proj", "/home/user/proj"⟩] none "../../etc/passwd" = none
    ∧ FileActionExecutor.resolveUri "/home/user"
        [⟨"proj", "/home/user/proj"⟩] none "/etc/passwd" = none
    ∧ FileActionExecutor.resolveUri "/home/user"
        [⟨"app", "/home/user/app"⟩] none "/home/user/app2/x" = none :=
  ⟨fun cwd folders active filePath p hp =>
      resolveUri_inside cwd folders active filePath p hp,
    by decide, by decide, by decide⟩

/-- Witness for C1: a path that does resolve, and its containment. -/
theorem resolveUri_containment_witness :
    FileActionExecutor.resolveUri "/home/user" [⟨"app", "/home/user/app"⟩] none
        "app/src/main.py" = some "/home/user/app/src/main.py"
    ∧ ∃ f ∈ [(⟨"app", "/home/user/app"⟩ : FileActionExecutor.WorkspaceFolder)],
        ∃ t, resolvedSegs "/home/user" f.fsPath ++ t
          = resolvedSegs "/home/user" "/home/user/app/src/main.py" :=
  ⟨by decide, resolveUri_containment.1 "/home/user" _ none "app/src/main.py"
      "/home/user/app/src/main.py" (by decide)⟩

/-! ## Claim C2 -/

theorem applyLoop_no_cancel (outcomes : Nat → FileActionExecutor.ActionOutcome)
    (cancelled : Nat → Bool)
    (h1 : ∀ i, outcomes i ≠ .cancelledErr) (h2 : ∀ i, cancelled i = false) :
    ∀ (l : List FileAction) (idx : Nat),
      FileActionExecutor.applyLoop outcomes cancelled l idx
        = (true, List.range' idx l.length) := by
  intro l
  induction l with
  | nil => intro idx; rfl
  | cons a rest ih =>
    intro idx
    cases ho : outcomes idx with
    | cancelledErr => exact absurd ho (h1 idx)
    | success =>
      simp [FileActionExecutor.applyLoop, h2 idx, ho, ih (idx + 1), List.range'_succ]
    | failure =>
      simp [FileActionExecutor.applyLoop, h2 idx, ho, ih (idx + 1), List.range'_succ]

theorem applyLoop_cancel_at (outcomes : Nat → FileActionExecutor.ActionOutcome)
    (k : Nat) (h1 : ∀ i, outcomes i ≠ .cancelledErr) :
    ∀ (l : List FileAction) (idx : Nat), idx ≤ k → k < idx + l.length →
      FileActionExecutor.applyLoop outcomes (fun i => decide (k ≤ i)) l idx
        = (false, List.range' idx (k - idx)) := by
  intro l
  induction l with
  | nil => intro idx h2 h3; simp at h3; omega
  | cons a rest ih =>
    intro idx h2 h3
    by_cases hik : idx = k
    · subst hik
      simp [FileActionExecutor.applyLoop]
    · have hlt : idx < k := by omega
      have hd : decide (k ≤ idx) = false := decide_eq_false (by omega)
      have hrec := ih (idx + 1) (by omega) (by simp at h3 ⊢; omega)
      cases ho : outcomes idx with
      | cancelledErr => exact absurd ho (h1 idx)
      | success =>
        simp [FileActionExecutor.applyLoop, hd, ho, hrec]
        rw [show k - idx = k - (idx + 1) + 1 from by omega, List.range'_succ]
      | failure =>
        simp [FileActionExecutor.applyLoop, hd, ho, hrec]
        rw [show k - idx = k - (idx + 1) + 1 from by omega, List.range'_succ]

theorem applyLoop_cancelErr_at (outcomes : Nat → FileActionExecutor.ActionOutcome)
    (k : Nat) (h0 : outcomes k = .cancelledErr)
    (h1 : ∀ i, i < k → outcomes i ≠ .cancelledErr) :
    ∀ (l : List FileAction) (idx : Nat), idx ≤ k → k < idx + l.length →
      FileActionExecutor.applyLoop outcomes (fun _ => false) l idx
        = (false, List.range' idx (k - idx + 1)) := by
  intro l
  induction l with
  | nil => intro idx h2 h3; simp at h3; omega
  | cons a rest ih =>
    intro idx h2 h3
    by_cases hik : idx = k
    · subst hik
      simp [FileActionExecutor.applyLoop, h0]
    · have hlt : idx < k := by omega
      have hrec := ih (idx + 1) (by omega) (by simp at h3 ⊢; omega)
      cases ho : outcomes idx with
      | cancelledErr => exact absurd ho (h1 idx hlt)
      | success =>
        simp [FileActionExecutor.applyLoop, ho, hrec]
        rw [show k - idx + 1 = (k - (idx + 1) + 1) + 1 from by omega, List.range'_succ,
          List.range'_succ, List.range'_succ]
      | failure =>
        simp [FileActionExecutor.applyLoop, ho, hrec]
        rw [show k - idx + 1 = (k - (idx + 1) + 1) + 1 from by omega, List.range'_succ,
          List.range'_succ, List.range'_succ]

/-- C2: `FileActionExecutor.apply` never aborts because one action
fails — with no cancellation every action in the batch is started and
the batch completes, whatever mix of failures the actions produce — and
cancellation is the single exception: a token observed at index `k`
aborts the batch with exactly the first `k` actions started, and a
cancellation error thrown inside action `k` aborts it with exactly the
first `k + 1` actions started. -/
theorem apply_failures_continue_cancellation_aborts :
    (∀ (actions : List FileAction) (outcomes : Nat → FileActionExecutor.ActionOutcome)
        (cancelled : Nat → Bool),
        (∀ i, outcomes i ≠ .cancelledErr) → (∀ i, cancelled i = false) →
        FileActionExecutor.apply actions outcomes cancelled
          = (true, List.range actions.length))
    ∧ (∀ (actions : List FileAction) (outcomes : Nat → FileActionExecutor.ActionOutcome)
        (k : Nat), (∀ i, outcomes i ≠ .cancelledErr) → k < actions.length →
        FileActionExecutor.apply actions outcomes (fun i => decide (k ≤ i))
          = (false, List.range k))
    ∧ (∀ (actions : List FileAction) (outcomes : Nat → FileActionExecutor.ActionOutcome)
        (k : Nat), outcomes k = .cancelledErr → (∀ i, i < k → outcomes i ≠ .cancelledErr) →
        k < actions.length →
        FileActionExecutor.apply actions outcomes (fun _ => false)
          = (false, List.range (k + 1))) := by
  refine ⟨fun actions outcomes cancelled h1 h2 => ?_,
    fun actions outcomes k h1 hk => ?_, fun actions outcomes k h0 h1 hk => ?_⟩
  · rw [FileActionExecutor.apply, applyLoop_no_cancel outcomes cancelled h1 h2,
      List.range_eq_range']
  · rw [FileActionExecutor.apply,
      applyLoop_cancel_at outcomes k h1 actions 0 (Nat.zero_le k) (by omega),
      List.range_eq_range']
    simp
  · rw [FileActionExecutor.apply,
      applyLoop_cancelErr_at outcomes k h0 h1 actions 0 (Nat.zero_le k) (by omega),
      List.range_eq_range']
    simp

/-- Witness for C2 at a concrete three-action batch: one failing action
does not stop the batch; a token cancelled from index 1 on stops it
with only action 0 started; a cancellation error thrown inside action 1
stops it with only actions 0 and 1 started. -/
theorem apply_failures_continue_cancellation_aborts_witness :
    FileActionExecutor.apply
        [⟨.create, "b.py", none, none⟩, ⟨.edit, "b.py", none, none⟩,
         ⟨.delete, "b.py", none, none⟩]
        (fun i => if i = 0 then .failure else .success) (fun _ => false)
      = (true, List.range 3)
    ∧ FileActionExecutor.apply
        [⟨.create, "b.py", none, none⟩, ⟨.edit, "b.py", none, none⟩,
         ⟨.delete, "b.py", none, none⟩]
        (fun _ => .success) (fun i => decide (1 ≤ i))
      = (false, List.range 1)
    ∧ FileActionExecutor.apply
        [⟨.create, "b.py", none, none⟩, ⟨.edit, "b.py", none, none⟩,
         ⟨.delete, "b.py", none, none⟩]
        (fun i => if i = 1 then .cancelledErr else .success) (fun _ => false)
      = (false, List.range 2) :=
  ⟨apply_failures_continue_cancellation_aborts.1 _ _ _
      (fun i => by by_cases h : i = 0 <;> simp [h]) (fun i => rfl),
    apply_failures_continue_cancellation_aborts.2.1 _ _ 1
      (fun i => by decide) (by decide),
    apply_failures_continue_cancellation_aborts.2.2 _ _ 1 (by decide)
      (fun i hi => by
        have h0 : i = 0 := by omega
        subst h0
        decide) (by decide)⟩

/-! ## Helper lemmas: invariants of the entry parsers -/

theorem getFirstString_inv (keys : List String) (r : Json) (s : String)
    (h : ResponseParser.getFirstString r keys = some s) :
    s.jsTrim = s ∧ s ≠ "" := by
  induction keys with
  | nil => simp [ResponseParser.getFirstString] at h
  | cons k rest ih =>
    rw [ResponseParser.getFirstString] at h
    split at h
    · rename_i s2 hg
      split_ifs at h with hb
      · exact ih h
      · cases h; exact ⟨jsTrim_idem s2, hb⟩
    · exact ih h

theorem splitValueAndDescription_inv (v : String) :
    (ResponseParser.splitValueAndDescription v).1.jsTrim
        = (ResponseParser.splitValueAndDescription v).1
    ∧ (∀ d, (ResponseParser.splitValueAndDescription v).2 = some d →
        d.jsTrim = d ∧ d ≠ "") := by
  simp only [ResponseParser.splitValueAndDescription]
  split_ifs with hv
  · exact ⟨by decide, by simp⟩
  · split
    · exact ⟨jsTrim_idem v, by simp⟩
    · constructor
      · exact jsTrim_idem _
      · intro d hd
        split_ifs at hd with hb
        cases hd
        exact ⟨jsTrim_idem _, hb⟩

theorem stepOfEntry_inv (e : Json) (st : PlanStep)
    (h : ResponseParser.stepOfEntry e = some st) :
    st.title.jsTrim = st.title ∧ st.title ≠ ""
    ∧ (∀ d, st.detail = some d → d.jsTrim = d ∧ d ≠ "")
    ∧ (∀ r, st.result = some r → r.jsTrim = r ∧ r ≠ "") := by
  cases e with
  | null => simp [ResponseParser.stepOfEntry] at h
  | bool b => simp [ResponseParser.stepOfEntry] at h
  | num n => simp [ResponseParser.stepOfEntry] at h
  | arr xs => simp [ResponseParser.stepOfEntry] at h
  | str s =>
    simp only [ResponseParser.stepOfEntry] at h
    split_ifs at h with ht
    cases h
    exact ⟨jsTrim_idem s, ht, by simp, by simp⟩
  | obj fields =>
    simp only [ResponseParser.stepOfEntry] at h
    split_ifs at h with ht
    cases h
    refine ⟨?_, ht, ?_, ?_⟩
    · dsimp only []
      split
      · exact jsTrim_idem _
      · decide
    · intro d hd
      dsimp only [] at hd
      split at hd
      · rename_i x heq
        split_ifs at hd with hx
        cases hd
        obtain ⟨y, _, hy⟩ := Option.map_eq_some'.mp heq
        exact ⟨by rw [← hy, jsTrim_idem], hx⟩
      · cases hd
    · intro r hr
      dsimp only [] at hr
      split at hr
      · rename_i x heq
        split_ifs at hr with hx
        cases hr
        obtain ⟨y, _, hy⟩ := Option.map_eq_some'.mp heq
        exact ⟨by rw [← hy, jsTrim_idem], hx⟩
      · cases hr

theorem stringArrayEntry_inv (e : Json) (s : String)
    (h : ResponseParser.stringArrayEntry e = some s) :
    s.jsTrim = s ∧ s ≠ "" := by
  cases e with
  | null => simp [ResponseParser.stringArrayEntry] at h
  | bool b => simp [ResponseParser.stringArrayEntry] at h
  | num n => simp [ResponseParser.stringArrayEntry] at h
  | arr xs => simp [ResponseParser.stringArrayEntry] at h
  | obj fields => simp [ResponseParser.stringArrayEntry] at h
  | str s2 =>
    simp only [ResponseParser.stringArrayEntry] at h
    split_ifs at h with hb
    cases h
    exact ⟨jsTrim_idem s2, hb⟩

theorem parseCommandString_inv (v : String) (c : ShellCommandRequest)
    (h : ResponseParser.parseCommandString v = some c) :
    c.command.jsTrim = c.command ∧ c.command ≠ ""
    ∧ (∀ d, c.description = some d → d.jsTrim = d ∧ d ≠ "") := by
  simp only [ResponseParser.parseCommandString] at h
  split_ifs at h with h1 h2
  simp only [Option.some.injEq] at h
  subst h
  dsimp only []
  have hsv := splitValueAndDescription_inv
    (ResponseParser.stripLeadingLabel
      ( ResponseParser.stripListPrefix v) ["command", "cmd", "shell"])
  exact ⟨hsv.1, h2, hsv.2⟩

theorem commandOfEntry_inv (e : Json) (c : ShellCommandRequest)
    (h : ResponseParser.commandOfEntry e = some c) :
    c.command.jsTrim = c.command ∧ c.command ≠ "" := by
  cases e with
  | null => simp [ResponseParser.commandOfEntry] at h
  | bool b => simp [ResponseParser.commandOfEntry] at h
  | num n => simp [ResponseParser.commandOfEntry] at h
  | arr xs => simp [ResponseParser.commandOfEntry] at h
  | str s =>
    simp only [ResponseParser.commandOfEntry] at h
    have := parseCommandString_inv s c h
    exact ⟨this.1, this.2.1⟩
  | obj fields =>
    simp only [ResponseParser.commandOfEntry] at h
    split at h
    · rename_i c2 hg
      split_ifs at h with hb
      simp only [Option.some.injEq] at h
      subst h
      dsimp only []
      exact ⟨jsTrim_idem c2, hb⟩
    · cases h

theorem parseFileActionString_inv (v : String) (a : FileAction)
    (h : ResponseParser.parseFileActionString v = some a) :
    a.path.jsTrim = a.path ∧ a.path ≠ "" ∧ a.content = none
    ∧ (∀ d, a.description = some d → d.jsTrim = d ∧ d ≠ "") := by
  rw [ResponseParser.parseFileActionString] at h
  dsimp only [] at h
  split_ifs at h with h1
  split at h
  · cases h
  · split at h
    · cases h
    · rename_i ty remTokens
      split at h
      · cases h
      · split_ifs at h with h2
        simp only [Option.some.injEq] at h
        subst h
        dsimp only []
        refine ⟨normalizeFilePath_output_trim _, h2, rfl, ?_⟩
        exact (splitValueAndDescription_inv _).2

theorem fileActionOfEntry_inv (e : Json) (a : FileAction)
    (h : ResponseParser.fileActionOfEntry e = some a) :
    a.path.jsTrim = a.path ∧ a.path ≠ "" := by
  cases e with
  | null => simp [ResponseParser.fileActionOfEntry] at h
  | bool b => simp [ResponseParser.fileActionOfEntry] at h
  | num n => simp [ResponseParser.fileActionOfEntry] at h
  | arr xs => simp [ResponseParser.fileActionOfEntry] at h
  | str s =>
    simp only [ResponseParser.fileActionOfEntry] at h
    have := parseFileActionString_inv s a h
    exact ⟨this.1, this.2.1⟩
  | obj fields =>
    simp only [ResponseParser.fileActionOfEntry] at h
    split at h
    · cases h
    · rename_i ty
      split_ifs at h with hb
      simp only [Option.some.injEq] at h
      subst h
      dsimp only []
      constructor
      · split
        · exact normalizeFilePath_output_trim _
        · decide
      · exact hb

theorem parseSteps_mem (v : Option Json) (st : PlanStep)
    (h : st ∈ ResponseParser.parseSteps v) :
    ∃ e, ResponseParser.stepOfEntry e = some st := by
  cases v with
  | none => simp [ResponseParser.parseSteps] at h
  | some j =>
    cases j with
    | arr entries =>
      simp only [ResponseParser.parseSteps] at h
      obtain ⟨e, _, he⟩ := List.mem_filterMap.mp h
      exact ⟨e, he⟩
    | null => simp [ResponseParser.parseSteps] at h
    | bool b => simp [ResponseParser.parseSteps] at h
    | num n => simp [ResponseParser.parseSteps] at h
    | str s => simp [ResponseParser.parseSteps] at h
    | obj fields => simp [ResponseParser.parseSteps] at h

theorem parseStringArray_mem (v : Option Json) (s : String)
    (h : s ∈ ResponseParser.parseStringArray v) :
    ∃ e, ResponseParser.stringArrayEntry e = some s := by
  cases v with
  | none => simp [ResponseParser.parseStringArray] at h
  | some j =>
    cases j with
    | arr entries =>
      simp only [ResponseParser.parseStringArray] at h
      obtain ⟨e, _, he⟩ := List.mem_filterMap.mp h
      exact ⟨e, he⟩
    | null => simp [ResponseParser.parseStringArray] at h
    | bool b => simp [ResponseParser.parseStringArray] at h
    | num n => simp [ResponseParser.parseStringArray] at h
    | str s2 => simp [ResponseParser.parseStringArray] at h
    | obj fields => simp [ResponseParser.parseStringArray] at h

theorem parseCommands_mem (v : Option Json) (c : ShellCommandRequest)
    (h : c ∈ ResponseParser.parseCommands v) :
    ∃ e, ResponseParser.commandOfEntry e = some c := by
  cases v with
  | none => simp [ResponseParser.parseCommands] at h
  | some j =>
    cases j with
    | arr entries =>
      simp only [ResponseParser.parseCommands] at h
      obtain ⟨e, _, he⟩ := List.mem_filterMap.mp h
      exact ⟨e, he⟩
    | null => simp [ResponseParser.parseCommands] at h
    | bool b => simp [ResponseParser.parseCommands] at h
    | num n => simp [ResponseParser.parseCommands] at h
    | str s => simp [ResponseParser.parseCommands] at h
    | obj fields => simp [ResponseParser.parseCommands] at h

theorem parseFileActions_mem (v : Option Json) (a : FileAction)
    (h : a ∈ ResponseParser.parseFileActions v) :
    ∃ e, ResponseParser.fileActionOfEntry e = some a := by
  cases v with
  | none => simp [ResponseParser.parseFileActions] at h
  | some j =>
    cases j with
    | arr entries =>
      simp only [ResponseParser.parseFileActions] at h
      obtain ⟨e, _, he⟩ := List.mem_filterMap.mp h
      exact ⟨e, he⟩
    | null => simp [ResponseParser.parseFileActions] at h
    | bool b => simp [ResponseParser.parseFileActions] at h
    | num n => simp [ResponseParser.parseFileActions] at h
    | str s => simp [ResponseParser.parseFileActions] at h
    | obj fields => simp [ResponseParser.parseFileActions] at h

theorem expectString_ok_required (v : Option Json) (f s : String)
    (h : ResponseParser.expectString v f false = .ok s) : s.jsTrim ≠ "" := by
  cases v with
  | none => simp [ResponseParser.expectString] at h
  | some j =>
    cases j with
    | str s2 =>
      by_cases hb : s2.jsTrim = ""
      · simp [ResponseParser.expectString, hb] at h
      · simp [ResponseParser.expectString, hb] at h
        rw [← h]
        exact hb
    | null => simp [ResponseParser.expectString] at h
    | bool b => simp [ResponseParser.expectString] at h
    | num n => simp [ResponseParser.expectString] at h
    | arr xs => simp [ResponseParser.expectString] at h
    | obj fields => simp [ResponseParser.expectString] at h

theorem expectString_ok_optional (v : Option Json) (f s : String)
    (h : ResponseParser.expectString v f true = .ok s) :
    s.jsTrim = "" → s = "" := by
  cases v with
  | none => simp [ResponseParser.expectString] at h
  | some j =>
    cases j with
    | str s2 =>
      by_cases hb : s2.jsTrim = ""
      · simp [ResponseParser.expectString, hb] at h
        intro _
        exact h.symm
      · simp [ResponseParser.expectString, hb] at h
        intro hcon
        rw [← h] at hcon
        exact absurd hcon hb
    | null => simp [ResponseParser.expectString] at h
    | bool b => simp [ResponseParser.expectString] at h
    | num n => simp [ResponseParser.expectString] at h
    | arr xs => simp [ResponseParser.expectString] at h
    | obj fields => simp [ResponseParser.expectString] at h

theorem planOfObject_ok_shape (j : Json) (p : AssistantPlan)
    (h : ResponseParser.planOfObject j = .ok p) :
    ResponseParser.expectString (j.getField "summary") "summary" false = .ok p.summary
    ∧ ResponseParser.expectString (j.getField "message") "message" true = .ok p.message
    ∧ p.steps = ResponseParser.parseSteps (j.getField "steps")
    ∧ p.liveLog = ResponseParser.parseStringArray
        (j.fieldCoalesce ["liveLog", "workLog", "log"])
    ∧ p.qaFindings = ResponseParser.parseStringArray
        (j.fieldCoalesce ["qaFindings", "qualityFindings"])
    ∧ p.testResults = ResponseParser.parseStringArray
        (j.fieldCoalesce ["testResults", "tests", "testLog", "testOutcomes"])
    ∧ p.commandRequests = ResponseParser.parseCommands (j.getField "commandRequests")
    ∧ p.fileActions = ResponseParser.parseFileActions (j.getField "fileActions") := by
  rw [ResponseParser.planOfObject] at h
  cases hsum : ResponseParser.expectString (j.getField "summary") "summary" false with
  | error e => rw [hsum] at h; cases h
  | ok s =>
    rw [hsum] at h
    cases hmsg : ResponseParser.expectString (j.getField "message") "message" true with
    | error e => rw [hmsg] at h; cases h
    | ok m =>
      rw [hmsg] at h
      simp only [Except.bind, Except.pure] at h
      cases h
      dsimp only []
      exact ⟨rfl, rfl, rfl, rfl, rfl, rfl, rfl, rfl⟩


/-! ## Claim C4 -/

/-- C4: every plan returned by `parse` satisfies the schema
invariants — non-blank summary, message empty or non-blank, non-blank
step titles, commands and file-action paths, file-action types drawn
from create/edit/delete; sequence fields default to empty arrays when
absent, and malformed items are dropped entirely rather than
null-patched, as the two concrete parses show; a blank summary makes
the whole parse fail. -/
theorem parse_invariants :
    (∀ (jsonc : Option (String → Option Json)) (raw : String) (p : AssistantPlan),
        ResponseParser.parse jsonc raw = .ok p →
        p.summary.jsTrim ≠ ""
        ∧ (p.message.jsTrim = "" → p.message = "")
        ∧ (∀ st ∈ p.steps, st.title.jsTrim = st.title ∧ st.title ≠ "")
        ∧ (∀ c ∈ p.commandRequests, c.command.jsTrim = c.command ∧ c.command ≠ "")
        ∧ (∀ a ∈ p.fileActions,
            (a.type = .create ∨ a.type = .edit ∨ a.type = .delete) ∧ a.path ≠ ""))
    ∧ (∀ (jsonc : Option (String → Option Json)) (raw : String) (j : Json) (s : String),
        ResponseParser.safeParse jsonc raw = .ok j →
        j.getField "summary" = some (.str s) → s.jsTrim = "" →
        ResponseParser.parse jsonc raw = .error (ResponseParser.missingMsg "summary"))
    ∧ ResponseParser.parse none "\x7b\"summary\": \"s\", \"message\": \"m\"\x7d"
        = .ok ⟨"s", "m", [], [], [], [], [], []⟩
    ∧ ResponseParser.parse none
        ("\x7b\"summary\": \"s\", \"message\": \"\", "
          ++ "\"steps\": [\" a \", 3, \x7b\"detail\": \"d\"\x7d], "
          ++ "\"commandRequests\": [\x7b\"command\": \"  \"\x7d, \"\", "
          ++ "\x7b\"command\": \" ls \"\x7d], "
          ++ "\"fileActions\": [\x7b\"type\": \"create\"\x7d, "
          ++ "\x7b\"type\": \"create\", \"path\": \"a.py\"\x7d]\x7d")
        = .ok ⟨"s", "", [⟨"a", none, none⟩], [], [], [],
            [⟨"ls", none⟩], [⟨.create, "a.py", none, none⟩]⟩ := by
  refine ⟨fun jsonc raw p hp => ?_, fun jsonc raw j s hsp hs hblank => ?_,
    by decide, by decide⟩
  · cases hsp : ResponseParser.safeParse jsonc raw with
    | error e => rw [ResponseParser.parse, hsp] at hp; cases hp
    | ok j =>
      rw [ResponseParser.parse, hsp] at hp
      obtain ⟨hsum, hmsg, hsteps, _, _, _, hcmds, hfas⟩ :=
        planOfObject_ok_shape j p hp
      refine ⟨expectString_ok_required _ _ _ hsum,
        expectString_ok_optional _ _ _ hmsg, ?_, ?_, ?_⟩
      · intro st hst
        rw [hsteps] at hst
        obtain ⟨e, he⟩ := parseSteps_mem _ _ hst
        have := stepOfEntry_inv e st he
        exact ⟨this.1, this.2.1⟩
      · intro c hc
        rw [hcmds] at hc
        obtain ⟨e, he⟩ := parseCommands_mem _ _ hc
        exact commandOfEntry_inv e c he
      · intro a ha
        rw [hfas] at ha
        obtain ⟨e, he⟩ := parseFileActions_mem _ _ ha
        exact ⟨by cases a.type <;> simp, (fileActionOfEntry_inv e a he).2⟩
  · rw [ResponseParser.parse, hsp]
    show ResponseParser.planOfObject j = _
    rw [ResponseParser.planOfObject, hs]
    simp only [ResponseParser.expectString, hblank]
    rfl

/-- Witness for C4: the invariants evaluated on a parse of a concrete
response with padded and malformed pieces. -/
theorem parse_invariants_witness :
    ResponseParser.parse none
        "\x7b\"summary\": \" padded \", \"message\": \"\", \"steps\": [\" t \"]\x7d"
      = .ok ⟨" padded ", "", [⟨"t", none, none⟩], [], [], [], [], []⟩
    ∧ (" padded ".jsTrim ≠ ""
        ∧ (("" : String).jsTrim = "" → ("" : String) = "")
        ∧ (∀ st ∈ [(⟨"t", none, none⟩ : PlanStep)],
            st.title.jsTrim = st.title ∧ st.title ≠ "")
        ∧ (∀ c ∈ ([] : List ShellCommandRequest),
            c.command.jsTrim = c.command ∧ c.command ≠ "")
        ∧ (∀ a ∈ ([] : List FileAction),
            (a.type = .create ∨ a.type = .edit ∨ a.type = .delete) ∧ a.path ≠ "")) :=
  ⟨by decide, parse_invariants.1 none
    "\x7b\"summary\": \" padded \", \"message\": \"\", \"steps\": [\" t \"]\x7d"
    ⟨" padded ", "", [⟨"t", none, none⟩], [], [], [], [], []⟩ (by decide)⟩

/-! ## Claim C5 -/

/-- C5 (amended): per candidate the recoverer runs a strict parse and
then exactly one lenient stage — the `jsonc-parser` library when it is
installed, the manual character-scanning cleanup only when it is not —
and the first candidate yielding a non-array object wins; with the
library installed the manual cleanup never runs as a further stage. -/
theorem safeParse_single_lenient_stage :
    (∀ (lenient : String → Option Json) (raw : String),
        ResponseParser.safeParse (some lenient) raw
          = ResponseParser.safeParseLibraryLenient lenient raw)
    ∧ (∀ raw : String,
        ResponseParser.safeParse none raw
          = ResponseParser.safeParseManualLenient raw) :=
  ⟨fun lenient raw => rfl, fun raw => rfl⟩

/-- Counterexample to the three-stage reading of C5: on an object
followed by an unterminated block comment the library stage fails, the
code stops there and the parse errors, while the specification's third
stage (manual cleanup, then strict parse) would have recovered the
plan. -/
theorem safeParse_three_stage_counterexample :
    ResponseParser.parse (some ResponseParser.jsoncParseModel)
        "\x7b\"summary\": \"s\", \"message\": \"m\"\x7d /* \x7d"
      = .error ("Failed to parse assistant response as JSON. Received: "
          ++ "\x7b\"summary\": \"s\", \"message\": \"m\"\x7d /* \x7d")
    ∧ ResponseParser.parseThreeStage ResponseParser.jsoncParseModel
        "\x7b\"summary\": \"s\", \"message\": \"m\"\x7d /* \x7d"
      = .ok ⟨"s", "m", [], [], [], [], [], []⟩ :=
  ⟨by decide, by decide⟩

/-! ## Claim C6 -/

theorem generatePlanRetries_firstSuccess
    (respond : List AssistantController.ConversationMessage → Nat → String)
    (parsePlan : String → Except String AssistantPlan)
    (h0 : List AssistantController.ConversationMessage) (n : Nat) (plan : AssistantPlan)
    (hfail : ∀ k, k < n → ∃ e,
      parsePlan (respond (AssistantController.attemptHistoryAt respond h0 k) (k + 1))
        = .error e)
    (hok : parsePlan
        (respond (AssistantController.attemptHistoryAt respond h0 n) (n + 1))
        = .ok plan) :
    ∀ d j fuel, j + d = n → n < fuel + j →
      AssistantController.generatePlanRetries respond parsePlan fuel
          (AssistantController.attemptHistoryAt respond h0 j) (j + 1) j
        = some (plan,
            respond (AssistantController.attemptHistoryAt respond h0 n) (n + 1)) := by
  intro d
  induction d with
  | zero =>
    intro j fuel hj hf
    have hjn : j = n := by omega
    subst hjn
    obtain ⟨f2, rfl⟩ : ∃ f2, fuel = f2 + 1 := ⟨fuel - 1, by omega⟩
    simp only [AssistantController.generatePlanRetries, hok]
  | succ d ih =>
    intro j fuel hj hf
    obtain ⟨e, he⟩ := hfail j (by omega)
    obtain ⟨f2, rfl⟩ : ∃ f2, fuel = f2 + 1 := ⟨fuel - 1, by omega⟩
    simp only [AssistantController.generatePlanRetries, he]
    have hstep :
        AssistantController.attemptHistoryAt respond h0 j
            ++ AssistantController.correctionMessages
                (respond (AssistantController.attemptHistoryAt respond h0 j) (j + 1))
                (j + 1)
          = AssistantController.attemptHistoryAt respond h0 (j + 1) := by
      rw [AssistantController.attemptHistoryAt]
    rw [hstep]
    exact ih (j + 1) f2 (by omega) (by omega)

/-- C6: retries after failed recovery — when the first `n` verifier
responses fail to parse, the loop reaches attempt `n + 1` whatever `n`
is (no attempt ceiling, given enough fuel to model the unbounded
`while (true)`), and returns that attempt's plan once it parses; every
per-attempt history extends the stored conversation history, which is
itself passed along unchanged (never mutated); each retry appends the
raw response truncated to at most 4001 characters plus a corrective
user instruction. -/
theorem generatePlanWithRetries_correct :
    (∀ (respond : List AssistantController.ConversationMessage → Nat → String)
        (parsePlan : String → Except String AssistantPlan)
        (h0 : List AssistantController.ConversationMessage) (n : Nat)
        (plan : AssistantPlan),
        (∀ k, k < n → ∃ e, parsePlan (respond
            (AssistantController.attemptHistoryAt respond h0 k) (k + 1)) = .error e) →
        parsePlan (respond (AssistantController.attemptHistoryAt respond h0 n) (n + 1))
          = .ok plan →
        ∀ fuel, n < fuel →
        AssistantController.generatePlanWithRetries respond parsePlan h0 fuel
          = some (plan,
              respond (AssistantController.attemptHistoryAt respond h0 n) (n + 1)))
    ∧ (∀ (respond : List AssistantController.ConversationMessage → Nat → String)
        (h0 : List AssistantController.ConversationMessage) (n : Nat),
        ∃ t, AssistantController.attemptHistoryAt respond h0 n = h0 ++ t)
    ∧ (∀ raw, (AssistantController.truncateResponse raw).length ≤ 4001)
    ∧ (∀ (respond : List AssistantController.ConversationMessage → Nat → String)
        (h0 : List AssistantController.ConversationMessage) (n : Nat),
        AssistantController.attemptHistoryAt respond h0 (n + 1)
          = AssistantController.attemptHistoryAt respond h0 n
            ++ [⟨"assistant", AssistantController.truncateResponse
                  (respond (AssistantController.attemptHistoryAt respond h0 n) (n + 1))⟩,
                ⟨"user", AssistantController.parseReminder (n + 1)⟩]) := by
  refine ⟨fun respond parsePlan h0 n plan hfail hok fuel hf => ?_,
    fun respond h0 n => ?_, fun raw => ?_, fun respond h0 n => ?_⟩
  · have h := generatePlanRetries_firstSuccess respond parsePlan h0 n plan hfail hok
      n 0 fuel (by omega) (by omega)
    exact h
  · induction n with
    | zero => exact ⟨[], (List.append_nil h0).symm⟩
    | succ n ih =>
      obtain ⟨t, ht⟩ := ih
      have hs : AssistantController.attemptHistoryAt respond h0 (n + 1)
          = AssistantController.attemptHistoryAt respond h0 n
            ++ AssistantController.correctionMessages
                (respond (AssistantController.attemptHistoryAt respond h0 n) (n + 1))
                (n + 1) := by
        rw [AssistantController.attemptHistoryAt]
      refine ⟨t ++ AssistantController.correctionMessages
          (respond (AssistantController.attemptHistoryAt respond h0 n) (n + 1))
          (n + 1), ?_⟩
      rw [hs, ht, List.append_assoc]
  · rw [AssistantController.truncateResponse]
    split_ifs with h
    · rw [String.length_append]
      have h1 : (String.mk (raw.data.take 4000)).length = (raw.data.take 4000).length :=
        rfl
      have h2 : (raw.data.take 4000).length ≤ 4000 := by
        rw [List.length_take]
        omega
      have h3 : ("…" : String).length = 1 := rfl
      omega
    · omega
  · rw [AssistantController.attemptHistoryAt]
    rfl

/-- Witness for C6: two failing attempts, then a parse success on
attempt three, recovered by the loop. -/
theorem generatePlanWithRetries_correct_witness :
    AssistantController.generatePlanWithRetries
        (fun _ a => if a = 3 then "ok" else "bad")
        (fun raw => if raw = "ok"
          then .ok (⟨"s", "", [], [], [], [], [], []⟩ : AssistantPlan)
          else .error "bad")
        [] 10
      = some (⟨"s", "", [], [], [], [], [], []⟩, "ok") := by
  have h := generatePlanWithRetries_correct.1
    (fun _ a => if a = 3 then "ok" else "bad")
    (fun raw => if raw = "ok"
      then .ok (⟨"s", "", [], [], [], [], [], []⟩ : AssistantPlan)
      else .error "bad")
    [] 2 ⟨"s", "", [], [], [], [], [], []⟩
    (fun k hk => ⟨"bad", by
      have hk2 : k = 0 ∨ k = 1 := by omega
      rcases hk2 with rfl | rfl <;> rfl⟩)
    (by rfl) 10 (by omega)
  rw [h]
  rfl

/-! ## Claim C7 -/

/-- C7: model-id inheritance resolves at configuration-read time along
planner → reviewer → coder → verifier: a role whose setting is missing
or blank resolves to the previous role's resolved id; a pinned reviewer
keeps its id across any planner selection; concretely, after turn 1
pins the reviewer to `ollama:modelB`, changing the planner to
`ollama:modelC` in turn 2 leaves the resolved reviewer id at
`ollama:modelB`. -/
theorem modelId_inheritance :
    (∀ s : AssistantController.ModelSettings,
        (∀ c, s.collaboratorModelId = some c → c.jsTrim = "") →
        AssistantController.resolvedReviewerId s
          = AssistantController.resolvedPlannerId s)
    ∧ (∀ s : AssistantController.ModelSettings,
        (∀ c, s.coderModelId = some c → c.jsTrim = "") →
        AssistantController.resolvedCoderId s
          = AssistantController.resolvedReviewerId s)
    ∧ (∀ s : AssistantController.ModelSettings,
        (∀ c, s.verifierModelId = some c → c.jsTrim = "") →
        AssistantController.resolvedVerifierId s
          = AssistantController.resolvedCoderId s)
    ∧ (∀ (s : AssistantController.ModelSettings) (modelId c : String),
        s.collaboratorModelId = some c → c.jsTrim ≠ "" →
        AssistantController.resolvedReviewerId
            (AssistantController.handlePlannerModelSelection s modelId)
          = AssistantController.resolvedReviewerId s)
    ∧ AssistantController.resolvedReviewerId
        (AssistantController.handlePlannerModelSelection
          (AssistantController.handleReviewerModelSelection
            ⟨some "ollama:modelA", none, none, none⟩ "ollama:modelB")
          "ollama:modelC")
        = "ollama:modelB"
    ∧ AssistantController.resolvedPlannerId
        (AssistantController.handlePlannerModelSelection
          (AssistantController.handleReviewerModelSelection
            ⟨some "ollama:modelA", none, none, none⟩ "ollama:modelB")
          "ollama:modelC")
        = "ollama:modelC" := by
  refine ⟨fun s h => ?_, fun s h => ?_, fun s h => ?_,
    fun s modelId c hc hne => ?_, by decide, by decide⟩
  · cases hc : s.collaboratorModelId with
    | none => simp [AssistantController.resolvedReviewerId, hc]
    | some c => simp [AssistantController.resolvedReviewerId, hc, h c hc]
  · cases hc : s.coderModelId with
    | none => simp [AssistantController.resolvedCoderId, hc]
    | some c => simp [AssistantController.resolvedCoderId, hc, h c hc]
  · cases hc : s.verifierModelId with
    | none => simp [AssistantController.resolvedVerifierId, hc]
    | some c => simp [AssistantController.resolvedVerifierId, hc, h c hc]
  · have hcol : (AssistantController.handlePlannerModelSelection s modelId).collaboratorModelId
        = s.collaboratorModelId := by
      cases hm : s.modelId with
      | none =>
        simp only [AssistantController.handlePlannerModelSelection, hm]
        split_ifs <;> rfl
      | some current =>
        simp only [AssistantController.handlePlannerModelSelection, hm]
        split_ifs <;> rfl
    simp [AssistantController.resolvedReviewerId, hcol, hc, hne]

/-- Witness for C7: a settings record with a blank reviewer setting
inherits the planner's resolved id. -/
theorem modelId_inheritance_witness :
    AssistantController.resolvedReviewerId
        ⟨some "ollama:x", some "  ", none, none⟩
      = AssistantController.resolvedPlannerId
        ⟨some "ollama:x", some "  ", none, none⟩ :=
  modelId_inheritance.1 ⟨some "ollama:x", some "  ", none, none⟩
    (fun c hc => by cases hc; decide)

/-! ## Helper lemmas: handle selection -/

theorem reviewerHandle_planner (c : AssistantController.TurnConfig)
    (h : AssistantController.reviewerId c = c.modelId) :
    AssistantController.reviewerHandle c = .planner := by
  rw [AssistantController.reviewerHandle, if_pos h]

theorem coderHandle_planner (c : AssistantController.TurnConfig)
    (h : AssistantController.coderId c = c.modelId) :
    AssistantController.coderHandle c = .planner := by
  rw [AssistantController.coderHandle, if_pos h]

theorem coderHandle_reviewer (c : AssistantController.TurnConfig)
    (h : AssistantController.coderId c = AssistantController.reviewerId c) :
    AssistantController.coderHandle c = AssistantController.reviewerHandle c := by
  rw [AssistantController.coderHandle]
  split_ifs with h1 h2
  · exact (reviewerHandle_planner c (h ▸ h1)).symm
  · rfl

theorem verifierHandle_planner (c : AssistantController.TurnConfig)
    (h : AssistantController.verifierId c = c.modelId) :
    AssistantController.verifierHandle c = .planner := by
  rw [AssistantController.verifierHandle, if_pos h]

theorem verifierHandle_reviewer (c : AssistantController.TurnConfig)
    (h : AssistantController.verifierId c = AssistantController.reviewerId c) :
    AssistantController.verifierHandle c = AssistantController.reviewerHandle c := by
  rw [AssistantController.verifierHandle]
  split_ifs with h1 h2
  · exact (reviewerHandle_planner c (h ▸ h1)).symm
  · rfl

theorem verifierHandle_coder (c : AssistantController.TurnConfig)
    (h : AssistantController.verifierId c = AssistantController.coderId c) :
    AssistantController.verifierHandle c = AssistantController.coderHandle c := by
  rw [AssistantController.verifierHandle]
  split_ifs with h1 h2 h3
  · exact (coderHandle_planner c (h ▸ h1)).symm
  · exact (coderHandle_reviewer c (h ▸ h2)).symm
  · rfl

/-! ## Claim C8 -/

/-- C8: any two roles whose resolved model identifiers coincide are
routed through the same model-handle slot; the context scout shares the
planner's handle and QA and safety share the coder's; and every
invocation goes through one of the four slots (planner, reviewer,
coder, verifier). -/
theorem roleHandle_consistent :
    (∀ (c : AssistantController.TurnConfig) (r1 r2 : AssistantController.Role),
        AssistantController.roleModelId c r1 = AssistantController.roleModelId c r2 →
        AssistantController.roleHandle c r1 = AssistantController.roleHandle c r2)
    ∧ (∀ c : AssistantController.TurnConfig,
        AssistantController.roleHandle c .contextScout
          = AssistantController.roleHandle c .planner)
    ∧ (∀ c : AssistantController.TurnConfig,
        AssistantController.roleHandle c .qa = AssistantController.roleHandle c .coder
        ∧ AssistantController.roleHandle c .safety
            = AssistantController.roleHandle c .coder)
    ∧ (∀ (c : AssistantController.TurnConfig) (r : AssistantController.Role),
        AssistantController.roleHandle c r = .planner
        ∨ AssistantController.roleHandle c r = .reviewer
        ∨ AssistantController.roleHandle c r = .coder
        ∨ AssistantController.roleHandle c r = .verifier) := by
  refine ⟨fun c r1 r2 h => ?_, fun c => rfl, fun c => ⟨rfl, rfl⟩, fun c r => ?_⟩
  · cases r1 <;> cases r2 <;>
      simp only [AssistantController.roleModelId] at h <;>
      simp only [AssistantController.roleHandle] <;>
      first
        | rfl
        | exact reviewerHandle_planner c h
        | exact (reviewerHandle_planner c h.symm).symm
        | exact coderHandle_planner c h
        | exact (coderHandle_planner c h.symm).symm
        | exact coderHandle_reviewer c h
        | exact (coderHandle_reviewer c h.symm).symm
        | exact verifierHandle_planner c h
        | exact (verifierHandle_planner c h.symm).symm
        | exact verifierHandle_reviewer c h
        | exact (verifierHandle_reviewer c h.symm).symm
        | exact verifierHandle_coder c h
        | exact (verifierHandle_coder c h.symm).symm
  · cases hr : AssistantController.roleHandle c r with
    | planner => exact Or.inl rfl
    | reviewer => exact Or.inr (Or.inl rfl)
    | coder => exact Or.inr (Or.inr (Or.inl rfl))
    | verifier => exact Or.inr (Or.inr (Or.inr rfl))

/-- Witness for C8: with the coder setting empty the coder inherits the
reviewer's id, and the two roles share a handle. -/
theorem roleHandle_consistent_witness :
    AssistantController.roleModelId ⟨"ollama:a", "ollama:b", "", ""⟩ .coder
        = AssistantController.roleModelId ⟨"ollama:a", "ollama:b", "", ""⟩ .reviewer
    ∧ AssistantController.roleHandle ⟨"ollama:a", "ollama:b", "", ""⟩ .coder
        = AssistantController.roleHandle ⟨"ollama:a", "ollama:b", "", ""⟩ .reviewer :=
  ⟨by decide, roleHandle_consistent.1 ⟨"ollama:a", "ollama:b", "", ""⟩ .coder .reviewer
    (by decide)⟩

/-! ## Helper lemmas: streaming is observational -/

theorem invokeSingleModel_fst (role : String) (chunks : List String)
    (generated : String) (s1 s2 : Bool) :
    (AssistantController.invokeSingleModel role chunks generated s1).1
      = (AssistantController.invokeSingleModel role chunks generated s2).1 := by
  simp only [AssistantController.invokeSingleModel]
  split_ifs <;> rfl

theorem runRole_fst (build : AssistantController.Role → AssistantController.AssistantRequest
      → Option String → String)
    (gen : AssistantController.Role → String → List String × String)
    (role : AssistantController.Role) (roleName : String)
    (request : AssistantController.AssistantRequest) (upstream : Option String)
    (s1 s2 : Bool) :
    (AssistantController.runRole build gen role roleName request upstream s1).1
      = (AssistantController.runRole build gen role roleName request upstream s2).1 := by
  simp only [AssistantController.runRole]
  exact invokeSingleModel_fst _ _ _ _ _

theorem invokeCollaborativePlan_fst
    (build : AssistantController.Role → AssistantController.AssistantRequest
      → Option String → String)
    (gen : AssistantController.Role → String → List String × String)
    (request : AssistantController.AssistantRequest) (s1 s2 : Bool) :
    (AssistantController.invokeCollaborativePlan build gen request s1).1
      = (AssistantController.invokeCollaborativePlan build gen request s2).1 := by
  rw [AssistantController.invokeCollaborativePlan,
    AssistantController.invokeCollaborativePlan]
  rcases hp1 : AssistantController.runRole build gen .contextScout "ContextScout"
      request none s1 with ⟨r1, ev1⟩
  rcases hp2 : AssistantController.runRole build gen .contextScout "ContextScout"
      request none s2 with ⟨r12, ev2⟩
  have hr0 : r1 = r12 := by
    have hf := runRole_fst build gen .contextScout "ContextScout"
      request none s1 s2
    rw [hp1, hp2] at hf
    exact hf
  subst hr0
  cases r1 with
  | error e => rfl
  | ok briefing =>
    dsimp only []
    rcases hq1 : AssistantController.runRole build gen .planner "Planner"
        (AssistantController.contextRequest request briefing) none s1 with ⟨t1, fv1⟩
    rcases hq2 : AssistantController.runRole build gen .planner "Planner"
        (AssistantController.contextRequest request briefing) none s2 with ⟨t12, fv2⟩
    have hr1 : t1 = t12 := by
      have hf := runRole_fst build gen .planner "Planner"
        (AssistantController.contextRequest request briefing) none s1 s2
      rw [hq1, hq2] at hf
      exact hf
    subst hr1
    cases t1 with
    | error e => rfl
    | ok plannerDraft =>
      dsimp only []
      rcases hc1 : AssistantController.runRole build gen .coder "Coder"
          (AssistantController.contextRequest request briefing) (some plannerDraft) s1 with ⟨u1, gv1⟩
      rcases hc2 : AssistantController.runRole build gen .coder "Coder"
          (AssistantController.contextRequest request briefing) (some plannerDraft) s2 with ⟨u12, gv2⟩
      have hr2 : u1 = u12 := by
        have hf := runRole_fst build gen .coder "Coder"
          (AssistantController.contextRequest request briefing) (some plannerDraft) s1 s2
        rw [hc1, hc2] at hf
        exact hf
      subst hr2
      cases u1 with
      | error e => rfl
      | ok coderPlan =>
        dsimp only []
        rcases hd1 : AssistantController.runRole build gen .reviewer "Reviewer"
            (AssistantController.contextRequest request briefing) (some coderPlan) s1 with ⟨v1, iv1⟩
        rcases hd2 : AssistantController.runRole build gen .reviewer "Reviewer"
            (AssistantController.contextRequest request briefing) (some coderPlan) s2 with ⟨v12, iv2⟩
        have hr3 : v1 = v12 := by
          have hf := runRole_fst build gen .reviewer "Reviewer"
            (AssistantController.contextRequest request briefing) (some coderPlan) s1 s2
          rw [hd1, hd2] at hf
          exact hf
        subst hr3
        cases v1 with
        | error e => rfl
        | ok reviewerPlan =>
          dsimp only []
          rcases he1 : AssistantController.runRole build gen .qa "QA"
              (AssistantController.contextRequest request briefing) (some reviewerPlan) s1 with ⟨w1, jv1⟩
          rcases he2 : AssistantController.runRole build gen .qa "QA"
              (AssistantController.contextRequest request briefing) (some reviewerPlan) s2 with ⟨w12, jv2⟩
          have hr4 : w1 = w12 := by
            have hf := runRole_fst build gen .qa "QA"
              (AssistantController.contextRequest request briefing) (some reviewerPlan) s1 s2
            rw [he1, he2] at hf
            exact hf
          subst hr4
          cases w1 with
          | error e => rfl
          | ok qaPlan =>
            dsimp only []
            rcases hf1 : AssistantController.runRole build gen .safety "Safety"
                (AssistantController.contextRequest request briefing) (some qaPlan) s1 with ⟨x1, kv1⟩
            rcases hf2 : AssistantController.runRole build gen .safety "Safety"
                (AssistantController.contextRequest request briefing) (some qaPlan) s2 with ⟨x12, kv2⟩
            have hr5 : x1 = x12 := by
              have hf := runRole_fst build gen .safety "Safety"
                (AssistantController.contextRequest request briefing) (some qaPlan) s1 s2
              rw [hf1, hf2] at hf
              exact hf
            subst hr5
            cases x1 with
            | error e => rfl
            | ok safetyPlan =>
              dsimp only []
              rcases hg1 : AssistantController.runRole build gen .verifier "Verifier"
                  (AssistantController.contextRequest request briefing) (some safetyPlan) s1 with ⟨y1, lv1⟩
              rcases hg2 : AssistantController.runRole build gen .verifier "Verifier"
                  (AssistantController.contextRequest request briefing) (some safetyPlan) s2 with ⟨y12, lv2⟩
              have hr6 : y1 = y12 := by
                have hf := runRole_fst build gen .verifier "Verifier"
                  (AssistantController.contextRequest request briefing) (some safetyPlan) s1 s2
                rw [hg1, hg2] at hf
                exact hf
              subst hr6
              cases y1 with
              | error e => rfl
              | ok verifiedPlan => rfl

/-! ## Claim C9 -/

/-- C9: live streaming is purely observational — for every prompt
strategy, every inference behaviour and every request, the raw response
and the recovered plan of a turn are identical with the live-stream
configuration enabled and disabled; only the emitted snapshots
differ. -/
theorem runTurn_noninterference :
    ∀ (build : AssistantController.Role → AssistantController.AssistantRequest
        → Option String → String)
      (gen : AssistantController.Role → String → List String × String)
      (jsonc : Option (String → Option Json))
      (request : AssistantController.AssistantRequest),
      (AssistantController.runTurn build gen jsonc request true).1
        = (AssistantController.runTurn build gen jsonc request false).1 := by
  intro build gen jsonc request
  rw [AssistantController.runTurn, AssistantController.runTurn]
  rcases hp1 : AssistantController.invokeCollaborativePlan build gen request true
    with ⟨r1, ev1⟩
  rcases hp2 : AssistantController.invokeCollaborativePlan build gen request false
    with ⟨r2, ev2⟩
  have hr : r1 = r2 := by
    have hf := invokeCollaborativePlan_fst build gen request true false
    rw [hp1, hp2] at hf
    exact hf
  subst hr
  cases r1 with
  | error e => rfl
  | ok raw => rfl

/-! ## Helper lemmas: pass-through values of `expectString` -/

theorem expectString_required_val (f s t : String)
    (h : ResponseParser.expectString (some (.str s)) f false = .ok t) : t = s := by
  by_cases hb : s.jsTrim = ""
  · simp [ResponseParser.expectString, hb] at h
  · simp [ResponseParser.expectString, hb] at h
    exact h.symm

theorem expectString_optional_val (f s t : String)
    (h : ResponseParser.expectString (some (.str s)) f true = .ok t)
    (hb : s.jsTrim ≠ "") : t = s := by
  simp [ResponseParser.expectString, hb] at h
  exact h.symm

/-! ## Claim C10 -/

/-- C10 (amended): every step title, step detail, step result, every
liveLog, qaFindings and testResults entry and every command string in a
parsed plan is trimmed and non-empty, while the summary and a non-blank
message are returned exactly as given, untrimmed; but these are not the
only untrimmed survivors — object-form command descriptions (and file
contents) also pass through verbatim. -/
theorem parse_full_trimming :
    (∀ (jsonc : Option (String → Option Json)) (raw : String) (p : AssistantPlan),
        ResponseParser.parse jsonc raw = .ok p →
        (∀ st ∈ p.steps, st.title.jsTrim = st.title ∧ st.title ≠ ""
          ∧ (∀ d, st.detail = some d → d.jsTrim = d ∧ d ≠ "")
          ∧ (∀ r, st.result = some r → r.jsTrim = r ∧ r ≠ ""))
        ∧ (∀ s ∈ p.liveLog, s.jsTrim = s ∧ s ≠ "")
        ∧ (∀ s ∈ p.qaFindings, s.jsTrim = s ∧ s ≠ "")
        ∧ (∀ s ∈ p.testResults, s.jsTrim = s ∧ s ≠ "")
        ∧ (∀ c ∈ p.commandRequests, c.command.jsTrim = c.command ∧ c.command ≠ ""))
    ∧ (∀ (jsonc : Option (String → Option Json)) (raw : String) (j : Json)
        (p : AssistantPlan) (s : String),
        ResponseParser.parse jsonc raw = .ok p →
        ResponseParser.safeParse jsonc raw = .ok j →
        j.getField "summary" = some (.str s) → p.summary = s)
    ∧ (∀ (jsonc : Option (String → Option Json)) (raw : String) (j : Json)
        (p : AssistantPlan) (s : String),
        ResponseParser.parse jsonc raw = .ok p →
        ResponseParser.safeParse jsonc raw = .ok j →
        j.getField "message" = some (.str s) → s.jsTrim ≠ "" → p.message = s) := by
  refine ⟨fun jsonc raw p hp => ?_, fun jsonc raw j p s hp hsp hs => ?_,
    fun jsonc raw j p s hp hsp hs hb => ?_⟩
  · cases hsp : ResponseParser.safeParse jsonc raw with
    | error e => rw [ResponseParser.parse, hsp] at hp; cases hp
    | ok j =>
      rw [ResponseParser.parse, hsp] at hp
      obtain ⟨_, _, hsteps, hlive, hqa, htest, hcmds, _⟩ :=
        planOfObject_ok_shape j p hp
      refine ⟨?_, ?_, ?_, ?_, ?_⟩
      · intro st hst
        rw [hsteps] at hst
        obtain ⟨e, he⟩ := parseSteps_mem _ _ hst
        exact stepOfEntry_inv e st he
      · intro x hx
        rw [hlive] at hx
        obtain ⟨e, he⟩ := parseStringArray_mem _ _ hx
        exact stringArrayEntry_inv e x he
      · intro x hx
        rw [hqa] at hx
        obtain ⟨e, he⟩ := parseStringArray_mem _ _ hx
        exact stringArrayEntry_inv e x he
      · intro x hx
        rw [htest] at hx
        obtain ⟨e, he⟩ := parseStringArray_mem _ _ hx
        exact stringArrayEntry_inv e x he
      · intro c hc
        rw [hcmds] at hc
        obtain ⟨e, he⟩ := parseCommands_mem _ _ hc
        exact commandOfEntry_inv e c he
  · rw [ResponseParser.parse, hsp] at hp
    have hsum := (planOfObject_ok_shape j p hp).1
    rw [hs] at hsum
    exact expectString_required_val _ _ _ hsum
  · rw [ResponseParser.parse, hsp] at hp
    have hmsg := (planOfObject_ok_shape j p hp).2.1
    rw [hs] at hmsg
    exact expectString_optional_val _ _ _ hmsg hb

/-- Counterexample to the unamended reading of C10: an object-form
command description survives recovery untrimmed, so summary and
message are not the only fields through which whitespace padding
survives. -/
theorem parse_description_untrimmed_counterexample :
    ResponseParser.parse none
        ("\x7b\"summary\": \"s\", \"message\": \"\", "
          ++ "\"commandRequests\": [\x7b\"command\": \"ls\", "
          ++ "\"description\": \" d \"\x7d]\x7d")
      = .ok ⟨"s", "", [], [], [], [], [⟨"ls", some " d "⟩], []⟩
    ∧ (" d " : String).jsTrim ≠ " d " :=
  ⟨by decide, by decide⟩

/-- Witness for C10: a parse with padded step and log entries, whose
recovered fields are trimmed and non-empty. -/
theorem parse_full_trimming_witness :
    ResponseParser.parse none
        ("\x7b\"summary\": \"s\", \"message\": \"\", "
          ++ "\"steps\": [\x7b\"title\": \" t \", \"detail\": \" dd \"\x7d], "
          ++ "\"liveLog\": [\" x \"]\x7d")
      = .ok (⟨"s", "", [⟨"t", some "dd", none⟩], ["x"], [], [], [], []⟩ : AssistantPlan)
    ∧ (∀ st ∈ (⟨"s", "", [⟨"t", some "dd", none⟩], ["x"], [], [], [], []⟩
          : AssistantPlan).steps,
        st.title.jsTrim = st.title ∧ st.title ≠ ""
          ∧ (∀ d, st.detail = some d → d.jsTrim = d ∧ d ≠ "")
          ∧ (∀ r, st.result = some r → r.jsTrim = r ∧ r ≠ ""))
    ∧ (∀ s ∈ (⟨"s", "", [⟨"t", some "dd", none⟩], ["x"], [], [], [], []⟩
          : AssistantPlan).liveLog, s.jsTrim = s ∧ s ≠ "") := by
  have h := parse_full_trimming.1 none
    ("\x7b\"summary\": \"s\", \"message\": \"\", "
      ++ "\"steps\": [\x7b\"title\": \" t \", \"detail\": \" dd \"\x7d], "
      ++ "\"liveLog\": [\" x \"]\x7d")
    ⟨"s", "", [⟨"t", some "dd", none⟩], ["x"], [], [], [], []⟩ (by decide)
  exact ⟨by decide, h.1, h.2.1⟩

end LocalAiCoder
